import Mathlib

/-
  Verification of the dp-sidecar privacy-budget release controller.

  Shallow embedding of:
    - src/dp-sidecar/src/dp_mechanism.py   (DPMechanism)
    - src/dp-sidecar/src/budget_tracker.py (BudgetTracker)
    - src/dp-sidecar/src/window_scheduler.py (publish_window_releases, _create_new_window)
    - src/dp-sidecar/src/api.py            (get_current_window, get_dp_count)

  Database tables are modelled as in-memory lists of rows; SQL upserts
  keyed on (post_id, window_id) resp. post_id are modelled as
  update-or-insert on those lists.  The serial window_id column is a
  counter `next_wid` in the state.  Monetary/epsilon floats are modelled
  as rationals; the Laplace noise draw of `add_laplace_noise` is an
  oracle `noise : ℕ → ℚ` supplied to each scheduler tick (the code draws
  fresh randomness per changed post; `noise p` stands for the sample
  drawn for post p in that tick).  The external Fider true-count source
  `get_true_count_from_fider` is an oracle `tc : ℕ → ℕ`.
-/

namespace DP

/-- Row status of a dp_releases row: 'draft' or 'published'. -/
inductive RStatus where
  | draft : RStatus
  | published : RStatus
deriving DecidableEq, Repr

/-- Window status of a release_windows row: 'active' or 'closed'. -/
inductive WStatus where
  | active : WStatus
  | closed : WStatus
deriving DecidableEq, Repr

/-- A dp_releases row: (post_id, window_id) is the upsert key;
noisy_count is nullable (NULL for api-written drafts). -/
structure Release where
  post_id : ℕ
  window_id : ℕ
  true_count : ℕ
  noisy_count : Option ℚ
  epsilon_used : ℚ
  meets_threshold : Bool
  status : RStatus
deriving DecidableEq, Repr

/-- A dp_items row (per-post budget/lock cache), upsert key post_id. -/
structure DPItem where
  post_id : ℕ
  current_window_id : ℕ
  is_currently_locked : Bool
  total_epsilon_spent : ℚ
deriving DecidableEq, Repr

/-- A release_windows row.  window_id is a serial column. -/
structure Window where
  window_id : ℕ
  start_time : ℕ
  end_time : ℕ
  status : WStatus
deriving DecidableEq, Repr

/-- The dp_sidecar database state: the three tables plus the serial
counter feeding window_id. -/
structure St where
  releases : List Release
  items : List DPItem
  windows : List Window
  next_wid : ℕ
deriving DecidableEq, Repr

/-- Configuration: THRESHOLD, EPSILON_PER_QUERY and the tracker's
lifetime_cap from config.py / BudgetTracker.__init__; window duration
(DEMO_WINDOW_SECONDS resp. 24h); ci_margin is the display-rounding
constant `(sensitivity/epsilon) * ln(2/(1-confidence))` that
calculate_confidence_interval adds and subtracts (a fixed real constant
for fixed configuration, carried as an opaque rational here because the
api only pipes it into the response). -/
structure Cfg where
  threshold : ℕ
  epsilon_per_query : ℚ
  lifetime_cap : ℚ
  window_seconds : ℕ
  ci_margin : ℚ
deriving Repr

/-- The empty database on very first boot (zero windows ever created). -/
def st0 : St := ⟨[], [], [], 1⟩

/-! ### Generic list helpers mirroring SQL queries -/

/-- Fold step computing `ORDER BY (f x) DESC LIMIT 1`. -/
def maxByKey (f : α → ℕ) (acc : Option α) (x : α) : Option α :=
  match acc with
  | none => some x
  | some b => if f b < f x then some x else some b

/-- `WHERE post_id = p` on dp_releases. -/
def pRel (rs : List Release) (p : ℕ) : List Release :=
  rs.filter fun r => decide (r.post_id = p)

/-- `WHERE post_id = p AND status = 'published'` on dp_releases. -/
def publishedOf (rs : List Release) (p : ℕ) : List Release :=
  rs.filter fun r => decide (r.post_id = p ∧ r.status = RStatus.published)

/-- `SELECT COALESCE(SUM(epsilon_used), 0) ... WHERE post_id = p AND
status='published'` (budget_tracker.check_budget / _do_deduct). -/
def sumEpsL (rs : List Release) (p : ℕ) : ℚ :=
  ((publishedOf rs p).map Release.epsilon_used).sum

/-- `SELECT ... WHERE post_id = p AND status='published' ORDER BY
window_id DESC LIMIT 1` (scheduler and api "last published" lookup). -/
def lastPublished (rs : List Release) (p : ℕ) : Option Release :=
  (publishedOf rs p).foldl (maxByKey Release.window_id) none

/-- Key predicate of the (post_id, window_id) upsert conflict target. -/
def keyMatch (p w : ℕ) (r : Release) : Bool :=
  decide (r.post_id = p ∧ r.window_id = w)

/-- Whether a row with key (p, w) exists. -/
def hasKey (rs : List Release) (p w : ℕ) : Bool :=
  rs.any (keyMatch p w)

/-- `INSERT ... ON CONFLICT (post_id, window_id) DO UPDATE SET ...`:
if a row with the key exists, apply `upd` to it, else prepend `r`. -/
def upsertRelease (rs : List Release) (r : Release) (upd : Release → Release) :
    List Release :=
  if hasKey rs r.post_id r.window_id then
    rs.map fun x => if keyMatch r.post_id r.window_id x then upd x else x
  else r :: rs

/-- `INSERT ... ON CONFLICT (post_id, window_id) DO NOTHING` (api draft). -/
def insertIgnore (rs : List Release) (r : Release) : List Release :=
  if hasKey rs r.post_id r.window_id then rs else r :: rs

/-- `SELECT ... FROM dp_items WHERE post_id = p` (fetchone). -/
def lookupItem (is : List DPItem) (p : ℕ) : Option DPItem :=
  is.find? fun i => decide (i.post_id = p)

/-- `INSERT INTO dp_items ... ON CONFLICT (post_id) DO UPDATE SET`
(all payload columns are overwritten, see _do_deduct). -/
def upsertItem (is : List DPItem) (i : DPItem) : List DPItem :=
  if is.any (fun x => decide (x.post_id = i.post_id)) then
    is.map fun x => if decide (x.post_id = i.post_id) then i else x
  else i :: is

/-! ### BudgetTracker (budget_tracker.py) -/

/-- BudgetTracker.is_locked: reads the dp_items cache; a missing row
maps to `false`. -/
def is_lockedM (s : St) (p : ℕ) : Bool :=
  match lookupItem s.items p with
  | some i => i.is_currently_locked
  | none => false

/-- BudgetTracker.check_budget: recompute remaining from the published
sum; if the dp_items row exists and is locked, deny unconditionally;
else grant iff remaining ≥ needed.  Read-only (performs no writes). -/
def check_budget (cfg : Cfg) (s : St) (p : ℕ) (need : ℚ) : Bool × ℚ :=
  let total := sumEpsL s.releases p
  let rem := cfg.lifetime_cap - total
  match lookupItem s.items p with
  | some i =>
      if i.is_currently_locked then (false, rem)
      else (decide (rem ≥ need), rem)
  | none => (decide (rem ≥ need), rem)

/-- BudgetTracker._do_deduct on the scheduler's shared connection: the
SELECT SUM sees the rows already written in the same transaction (the
state `s` passed here), adds `used` on top, recomputes remaining, and
upserts dp_items with the lock decision `remaining < EPSILON_PER_QUERY`. -/
def do_deduct (cfg : Cfg) (s : St) (p w : ℕ) (used : ℚ) : St :=
  let total_before := sumEpsL s.releases p
  let total_after := total_before + used
  let rem := cfg.lifetime_cap - total_after
  let lock := decide (rem < cfg.epsilon_per_query)
  { s with items := upsertItem s.items ⟨p, w, lock, total_after⟩ }

/-! ### DPMechanism (dp_mechanism.py) -/

/-- DPMechanism.check_threshold: `true_count >= threshold`. -/
def check_threshold (cfg : Cfg) (t : ℕ) : Bool :=
  decide (cfg.threshold ≤ t)

/-! ### Scheduler (window_scheduler.publish_window_releases) -/

/-- Row inserted by the reuse branch (epsilon_used 0, previous noisy). -/
def reuseRow (wid t : ℕ) (L : Release) (p : ℕ) : Release :=
  ⟨p, wid, t, L.noisy_count, 0, true, RStatus.published⟩

/-- ON CONFLICT DO UPDATE of the reuse branch: only noisy_count,
status (and updated_at) are overwritten. -/
def reuseUpd (L : Release) : Release → Release := fun old =>
  { old with noisy_count := L.noisy_count, status := RStatus.published }

/-- The "count unchanged → reuse" branch: insert a published row
carrying forward the previous noisy_count with epsilon 0; the
ON CONFLICT clause updates only noisy_count and status. -/
def reuseStep (wid t : ℕ) (L : Release) (s : St) (p : ℕ) : St :=
  { s with releases := upsertRelease s.releases (reuseRow wid t L p) (reuseUpd L) }

/-- Row inserted by the changed-value branch (fresh noise, epsilon
EPSILON_PER_QUERY). -/
def chargeRow (cfg : Cfg) (wid t : ℕ) (nv : ℚ) (p : ℕ) : Release :=
  ⟨p, wid, t, some nv, cfg.epsilon_per_query, true, RStatus.published⟩

/-- ON CONFLICT DO UPDATE of the changed-value branch: true_count,
noisy_count, epsilon_used, status are overwritten. -/
def chargeUpd (cfg : Cfg) (t : ℕ) (nv : ℚ) : Release → Release := fun old =>
  { old with true_count := t, noisy_count := some nv,
             epsilon_used := cfg.epsilon_per_query, status := RStatus.published }

/-- The "count changed → new noise" branch: check the lifetime budget
(the noise was already drawn by the caller); on success insert the
published row with epsilon EPSILON_PER_QUERY and then deduct on the
same transaction, i.e. on the state that already contains the new row. -/
def chargeStep (cfg : Cfg) (wid t : ℕ) (nv : ℚ) (s : St) (p : ℕ) : St :=
  let rs := upsertRelease s.releases (chargeRow cfg wid t nv p) (chargeUpd cfg t nv)
  if (check_budget cfg s p cfg.epsilon_per_query).1 then
    do_deduct cfg { s with releases := rs } p wid cfg.epsilon_per_query
  else s

/-- Per-post body of the scheduler loop (Step 4 of
publish_window_releases): threshold check, last-published lookup,
reuse or charge.  `tc p` is the current Fider true count; `noise p`
the Laplace sample drawn for this post this tick. -/
def processPost (cfg : Cfg) (wid : ℕ) (tc : ℕ → ℕ) (noise : ℕ → ℚ)
    (s : St) (p : ℕ) : St :=
  if check_threshold cfg (tc p) then
    match lastPublished s.releases p with
    | some L =>
        if L.true_count = tc p then reuseStep wid (tc p) L s p
        else chargeStep cfg wid (tc p) ((tc p : ℚ) + noise p) s p
    | none => chargeStep cfg wid (tc p) ((tc p : ℚ) + noise p) s p
  else s

/-- `SELECT DISTINCT post_id FROM dp_releases` — the tracked set. -/
def trackedPosts (s : St) : List ℕ :=
  (s.releases.map Release.post_id).dedup

/-- `SELECT ... FROM release_windows WHERE status='active' ORDER BY
window_id DESC LIMIT 1` (scheduler Step 1; no end_time check). -/
def activeWindow (s : St) : Option Window :=
  (s.windows.filter fun w => decide (w.status = WStatus.active)).foldl
    (maxByKey Window.window_id) none

/-- `UPDATE release_windows SET status='closed' WHERE window_id = wid`. -/
def closeWin (wid : ℕ) (ws : List Window) : List Window :=
  ws.map fun w =>
    if decide (w.window_id = wid) then { w with status := WStatus.closed } else w

/-- _create_new_window: insert an active window [now, now+duration)
with the next serial id. -/
def createWindow (cfg : Cfg) (now : ℕ) (s : St) : St :=
  { s with
      windows := s.windows ++
        [⟨s.next_wid, now, now + cfg.window_seconds, WStatus.active⟩],
      next_wid := s.next_wid + 1 }

/-- One scheduler tick (publish_window_releases): if no active window
exists, create one and return; else process every tracked post, close
the processed window, and open the next one. -/
def tick (cfg : Cfg) (tc : ℕ → ℕ) (noise : ℕ → ℚ) (now : ℕ) (s : St) : St :=
  match activeWindow s with
  | none => createWindow cfg now s
  | some W =>
      let s1 := (trackedPosts s).foldl (processPost cfg W.window_id tc noise) s
      let s2 := { s1 with windows := closeWin W.window_id s1.windows }
      createWindow cfg now s2

/-! ### Query path (api.py) -/

/-- api.get_current_window: prefer an unexpired active window (ORDER BY
start_time DESC), else fall back to the most recent closed one, else
none; never creates windows. -/
def currentWindowApi (s : St) (now : ℕ) : Option ℕ :=
  match (s.windows.filter fun w =>
      decide (w.status = WStatus.active ∧ now < w.end_time)).foldl
      (maxByKey Window.start_time) none with
  | some w => some w.window_id
  | none =>
      match (s.windows.filter fun w =>
          decide (w.status = WStatus.closed)).foldl
          (maxByKey Window.window_id) none with
      | some w => some w.window_id
      | none => none

/-- `WHERE post_id = p AND window_id = w AND status='published'`
(api Step 5). -/
def currentPublishedRow (s : St) (p w : ℕ) : Option Release :=
  s.releases.find? fun r =>
    decide (r.post_id = p ∧ r.window_id = w ∧ r.status = RStatus.published)

/-- Python's `round(x, 1)` display rounding (tie behaviour differs from
Python's round-half-even only at exact .05 ties, immaterial here). -/
def round1 (q : ℚ) : ℚ := ((round (q * 10) : ℤ) : ℚ) / 10

/-- Response message discriminator of DPCountResponse.message. -/
inductive Msg where
  | initializing : Msg
  | trackingAdded : Msg
  | belowThreshold : Msg
  | lockedLast : Msg
  | currentRelease : Msg
  | staleRelease : Msg
deriving DecidableEq, Repr

/-- DPCountResponse. -/
structure Resp where
  post_id : ℕ
  noisy_count : Option ℚ
  epsilon_used : ℚ
  meets_threshold : Bool
  msg : Msg
  confidence_interval : Option (ℚ × ℚ)
  is_locked : Bool
  is_stale : Bool
  window_id : Option ℕ
deriving DecidableEq, Repr

/-- Confidence interval returned by the api: lower/upper at the fixed
configured margin, rounded for display (api rounds each bound to 1
decimal). -/
def ciOf (cfg : Cfg) (x : ℚ) : ℚ × ℚ :=
  (round1 (max 0 (x - cfg.ci_margin)), round1 (x + cfg.ci_margin))

/-- api.get_dp_count.  `t` is the Fider true count fetched for a new
post; `now` the query time.  `Except.error` models the unreachable
TypeError → HTTP 500 path where a meets_threshold row has NULL
noisy_count.  Note this function takes no noise oracle: the read path
cannot perform a random draw. -/
def get_dp_count (cfg : Cfg) (s : St) (p : ℕ) (now : ℕ) (t : ℕ) :
    Except Unit Resp × St :=
  match currentWindowApi s now with
  | none =>
      (Except.ok ⟨p, none, 0, false, Msg.initializing, none, false, false, none⟩, s)
  | some cw =>
      if s.releases.any (fun r => decide (r.post_id = p)) then
        -- Step 4: post already tracked; locked check first
        if is_lockedM s p then
          match lastPublished s.releases p with
          | some L =>
              if L.meets_threshold then
                match L.noisy_count with
                | some x =>
                    (Except.ok ⟨p, some (round1 x), 0, true, Msg.lockedLast,
                      none, true, false, some L.window_id⟩, s)
                | none => (Except.error (), s)
              else
                (Except.ok ⟨p, none, 0, false, Msg.belowThreshold,
                  none, true, false, some cw⟩, s)
          | none =>
              (Except.ok ⟨p, none, 0, false, Msg.belowThreshold,
                none, true, false, some cw⟩, s)
        else
          -- Step 5: published release in the current window?
          match currentPublishedRow s p cw with
          | some r =>
              if r.meets_threshold then
                match r.noisy_count with
                | some x =>
                    (Except.ok ⟨p, some (round1 x), 0, true, Msg.currentRelease,
                      some (ciOf cfg x), false, false, some cw⟩, s)
                | none => (Except.error (), s)
              else
                (Except.ok ⟨p, none, 0, false, Msg.belowThreshold,
                  none, false, false, some cw⟩, s)
          | none =>
              -- Step 6: fall back to the most recent published release
              match lastPublished s.releases p with
              | some L =>
                  if L.meets_threshold then
                    match L.noisy_count with
                    | some x =>
                        (Except.ok ⟨p, some (round1 x), 0, true, Msg.staleRelease,
                          some (ciOf cfg x), false, true, some L.window_id⟩, s)
                    | none => (Except.error (), s)
                  else
                    (Except.ok ⟨p, none, 0, false, Msg.belowThreshold,
                      none, false, false, some cw⟩, s)
              | none =>
                  (Except.ok ⟨p, none, 0, false, Msg.belowThreshold,
                    none, false, false, some cw⟩, s)
      else
        -- Step 3: new post → initial tracking entry (draft, NULL noisy)
        if check_threshold cfg t then
          let draftRow : Release := ⟨p, cw, t, none, 0, true, RStatus.draft⟩
          (Except.ok ⟨p, none, 0, true, Msg.trackingAdded,
            none, false, false, some cw⟩,
           { s with releases := insertIgnore s.releases draftRow })
        else
          (Except.ok ⟨p, none, 0, false, Msg.belowThreshold,
            none, false, false, some cw⟩, s)

/-- Project the noisy count out of a response (none on the error path). -/
def respNoisy (e : Except Unit Resp) : Option ℚ :=
  match e with
  | Except.ok r => r.noisy_count
  | Except.error _ => none

/-! ### Reachable states -/

/-- States reachable from first boot by scheduler ticks and api queries
(each tick runs under the scheduler's single-flight guard, so it is one
atomic operation; queries commit only their optional draft insert). -/
inductive Reach (cfg : Cfg) : St → Prop where
  | init : Reach cfg st0
  | step_tick (tc : ℕ → ℕ) (noise : ℕ → ℚ) (now : ℕ) {s : St} :
      Reach cfg s → Reach cfg (tick cfg tc noise now s)
  | step_query (p now t : ℕ) {s : St} :
      Reach cfg s → Reach cfg (get_dp_count cfg s p now t).2

/-! ### The noise-reuse chain property (claim C1's invariant shape) -/

/-- The noise-reuse property of a per-post list of published rows: any
row and its immediate predecessor in window order that carry the same
true value carry bit-identical randomized values, and the later one
charged zero epsilon. -/
def PChain (l : List Release) : Prop :=
  ∀ r1 ∈ l, ∀ r2 ∈ l, r1.window_id < r2.window_id →
    (∀ r3 ∈ l, ¬(r1.window_id < r3.window_id ∧ r3.window_id < r2.window_id)) →
    r1.true_count = r2.true_count →
    r2.noisy_count = r1.noisy_count ∧ r2.epsilon_used = 0

/-- Upsert key of a dp_releases row. -/
def rkey (r : Release) : ℕ × ℕ := (r.post_id, r.window_id)

/-- The (post_id, window_id) keys of the releases table are distinct
(the table's upsert key). -/
def keysNodup (rs : List Release) : Prop := (rs.map rkey).Nodup

/-! ### Generic lemmas about the SQL-mirroring helpers -/

theorem maxByKey_ne_none (f : α → ℕ) (acc : Option α) (x : α) :
    maxByKey f acc x ≠ none := by
  cases acc <;> simp only [maxByKey] <;> first
    | exact fun h => Option.noConfusion h
    | · split <;> exact fun h => Option.noConfusion h

theorem maxByKey_eq_some (f : α → ℕ) {acc : Option α} {x y : α}
    (h : maxByKey f acc x = some y) : y = x ∨ acc = some y := by
  cases acc with
  | none => exact Or.inl (Option.some.inj h).symm
  | some b =>
      simp only [maxByKey] at h
      split at h
      · exact Or.inl (Option.some.inj h).symm
      · exact Or.inr (by rw [Option.some.inj h])

theorem maxByKey_bounds (f : α → ℕ) (acc : Option α) (x : α) :
    ∃ c, maxByKey f acc x = some c ∧ f x ≤ f c ∧
      ∀ b, acc = some b → f b ≤ f c := by
  cases acc with
  | none => exact ⟨x, rfl, le_refl _, fun b hb => Option.noConfusion hb⟩
  | some b =>
      simp only [maxByKey]
      split
      · exact ⟨x, rfl, le_refl _,
          fun b' hb' => by rw [← Option.some.inj hb']; omega⟩
      · exact ⟨b, rfl, by omega, fun b' hb' => by rw [← Option.some.inj hb']⟩

theorem foldl_maxByKey_none (f : α → ℕ) (l : List α) (acc : Option α)
    (h : l.foldl (maxByKey f) acc = none) : acc = none ∧ l = [] := by
  induction l generalizing acc with
  | nil => exact ⟨h, rfl⟩
  | cons a t ih =>
      rcases ih (maxByKey f acc a) h with ⟨h1, _⟩
      exact absurd h1 (maxByKey_ne_none f acc a)

theorem foldl_maxByKey_mem (f : α → ℕ) (l : List α) (acc : Option α) (y : α)
    (h : l.foldl (maxByKey f) acc = some y) : y ∈ l ∨ acc = some y := by
  induction l generalizing acc with
  | nil => exact Or.inr h
  | cons a t ih =>
      rcases ih (maxByKey f acc a) h with hy | hy
      · exact Or.inl (List.mem_cons_of_mem _ hy)
      · rcases maxByKey_eq_some f hy with h' | h'
        · exact Or.inl (h' ▸ List.mem_cons_self a t)
        · exact Or.inr h'

theorem foldl_maxByKey_ge (f : α → ℕ) (l : List α) (acc : Option α) (y : α)
    (h : l.foldl (maxByKey f) acc = some y) :
    (∀ x ∈ l, f x ≤ f y) ∧ (∀ b, acc = some b → f b ≤ f y) := by
  induction l generalizing acc with
  | nil =>
      refine ⟨fun x hx => absurd hx (List.not_mem_nil x), fun b hb => ?_⟩
      have : some b = some y := by rw [← hb]; exact h
      rw [Option.some.inj this]
  | cons a t ih =>
      obtain ⟨hl, hacc⟩ := ih (maxByKey f acc a) h
      obtain ⟨c, hc, hxc, hbc⟩ := maxByKey_bounds f acc a
      have hcy : f c ≤ f y := hacc c hc
      refine ⟨fun x hx => ?_, fun b hb => le_trans (hbc b hb) hcy⟩
      rcases List.mem_cons.1 hx with rfl | hx
      · exact le_trans hxc hcy
      · exact hl x hx

theorem mem_publishedOf {rs : List Release} {p : ℕ} {r : Release} :
    r ∈ publishedOf rs p ↔
      r ∈ rs ∧ r.post_id = p ∧ r.status = RStatus.published := by
  simp [publishedOf, List.mem_filter]

theorem mem_pRel {rs : List Release} {p : ℕ} {r : Release} :
    r ∈ pRel rs p ↔ r ∈ rs ∧ r.post_id = p := by
  simp [pRel, List.mem_filter]

theorem publishedOf_eq_pRel (rs : List Release) (p : ℕ) :
    publishedOf rs p =
      (pRel rs p).filter (fun r => decide (r.status = RStatus.published)) := by
  unfold publishedOf pRel
  rw [List.filter_filter]
  apply List.filter_congr
  intro r _
  simp [Bool.and_comm]

theorem publishedOf_congr {rs rs' : List Release} {p : ℕ}
    (h : pRel rs p = pRel rs' p) : publishedOf rs p = publishedOf rs' p := by
  rw [publishedOf_eq_pRel, publishedOf_eq_pRel, h]

theorem sumEpsL_congr {rs rs' : List Release} {p : ℕ}
    (h : pRel rs p = pRel rs' p) : sumEpsL rs p = sumEpsL rs' p := by
  unfold sumEpsL
  rw [publishedOf_congr h]

theorem lastPublished_congr {rs rs' : List Release} {p : ℕ}
    (h : pRel rs p = pRel rs' p) : lastPublished rs p = lastPublished rs' p := by
  unfold lastPublished
  rw [publishedOf_congr h]

theorem lastPublished_mem {rs : List Release} {p : ℕ} {L : Release}
    (h : lastPublished rs p = some L) : L ∈ publishedOf rs p := by
  rcases foldl_maxByKey_mem _ _ _ _ h with hy | hy
  · exact hy
  · exact Option.noConfusion hy

theorem lastPublished_ge {rs : List Release} {p : ℕ} {L : Release}
    (h : lastPublished rs p = some L) :
    ∀ r ∈ publishedOf rs p, r.window_id ≤ L.window_id :=
  (foldl_maxByKey_ge _ _ _ _ h).1

theorem lastPublished_none {rs : List Release} {p : ℕ}
    (h : lastPublished rs p = none) : publishedOf rs p = [] :=
  (foldl_maxByKey_none _ _ _ h).2

theorem lastPublished_of_empty {rs : List Release} {p : ℕ}
    (h : publishedOf rs p = []) : lastPublished rs p = none := by
  unfold lastPublished
  rw [h]
  rfl

theorem keyMatch_iff {p w : ℕ} {r : Release} :
    keyMatch p w r = true ↔ r.post_id = p ∧ r.window_id = w := by
  simp [keyMatch]

theorem hasKey_iff {rs : List Release} {p w : ℕ} :
    hasKey rs p w = true ↔ ∃ r ∈ rs, r.post_id = p ∧ r.window_id = w := by
  simp [hasKey, List.any_eq_true, keyMatch]

theorem hasKey_eq_false {rs : List Release} {p w : ℕ}
    (h : ∀ r ∈ rs, ¬(r.post_id = p ∧ r.window_id = w)) : hasKey rs p w = false := by
  rw [← Bool.not_eq_true, hasKey_iff]
  push_neg at h ⊢
  exact h

/-! ### Upsert lemmas -/

theorem upsertRelease_fresh {rs : List Release} {r : Release}
    {upd : Release → Release} (h : hasKey rs r.post_id r.window_id = false) :
    upsertRelease rs r upd = r :: rs := by
  simp [upsertRelease, h]

theorem mem_upsertRelease {rs : List Release} {r x : Release}
    {upd : Release → Release} (hx : x ∈ upsertRelease rs r upd) :
    x ∈ rs ∨ x = r ∨
      ∃ y ∈ rs, y.post_id = r.post_id ∧ y.window_id = r.window_id ∧ x = upd y := by
  unfold upsertRelease at hx
  split at hx
  · rcases List.mem_map.1 hx with ⟨y, hy, hxy⟩
    by_cases hk : keyMatch r.post_id r.window_id y = true
    · rcases keyMatch_iff.1 hk with ⟨h1, h2⟩
      exact Or.inr (Or.inr ⟨y, hy, h1, h2, by rw [← hxy, if_pos hk]⟩)
    · rw [if_neg hk] at hxy
      exact Or.inl (hxy ▸ hy)
  · rcases List.mem_cons.1 hx with rfl | hx
    · exact Or.inr (Or.inl rfl)
    · exact Or.inl hx

theorem map_keyUpd_id {rs : List Release} {p w : ℕ} {upd : Release → Release}
    (h : ∀ y ∈ rs, keyMatch p w y = false) :
    rs.map (fun x => if keyMatch p w x then upd x else x) = rs := by
  rw [List.map_congr_left (g := id) ?_, List.map_id]
  intro a ha
  rw [h a ha]
  rfl

/-- ON CONFLICT surgery: with distinct keys, a conflicting upsert
rewrites exactly the unique row carrying the key. -/
theorem upsert_conflict_split {rs : List Release} {r : Release}
    {upd : Release → Release}
    (hnd : keysNodup rs) (hk : hasKey rs r.post_id r.window_id = true) :
    ∃ l1 x0 l2, rs = l1 ++ x0 :: l2 ∧
      x0.post_id = r.post_id ∧ x0.window_id = r.window_id ∧
      (∀ y ∈ l1, keyMatch r.post_id r.window_id y = false) ∧
      (∀ y ∈ l2, keyMatch r.post_id r.window_id y = false) ∧
      upsertRelease rs r upd = l1 ++ upd x0 :: l2 := by
  induction rs with
  | nil => simp [hasKey] at hk
  | cons a t ih =>
      by_cases hka : keyMatch r.post_id r.window_id a = true
      · rcases keyMatch_iff.1 hka with ⟨h1, h2⟩
        refine ⟨[], a, t, rfl, h1, h2, fun y hy => absurd hy (List.not_mem_nil y),
          fun y hy => ?_, ?_⟩
        · by_contra hc
          rw [Bool.not_eq_false] at hc
          rcases keyMatch_iff.1 hc with ⟨hy1, hy2⟩
          have hkey : rkey y = rkey a := by
            simp [rkey, hy1, hy2, h1, h2]
          have : rkey a ∈ t.map rkey := hkey ▸ List.mem_map_of_mem rkey hy
          exact (List.nodup_cons.1 hnd).1 this
        · unfold upsertRelease
          rw [if_pos hk]
          simp only [List.map_cons, if_pos hka, List.nil_append]
          congr 1
          apply map_keyUpd_id
          intro y hy
          by_contra hc
          rw [Bool.not_eq_false] at hc
          rcases keyMatch_iff.1 hc with ⟨hy1, hy2⟩
          have hkey : rkey y = rkey a := by
            simp [rkey, hy1, hy2, h1, h2]
          have : rkey a ∈ t.map rkey := hkey ▸ List.mem_map_of_mem rkey hy
          exact (List.nodup_cons.1 hnd).1 this
      · have hk' : hasKey t r.post_id r.window_id = true := by
          rcases hasKey_iff.1 hk with ⟨y, hy, hy1, hy2⟩
          rcases List.mem_cons.1 hy with rfl | hy
          · exact absurd (keyMatch_iff.2 ⟨hy1, hy2⟩) hka
          · exact hasKey_iff.2 ⟨y, hy, hy1, hy2⟩
        obtain ⟨l1, x0, l2, ht, h1, h2, hl1, hl2, hup⟩ :=
          ih (List.nodup_cons.1 hnd).2 hk'
        refine ⟨a :: l1, x0, l2, by rw [ht, List.cons_append], h1, h2,
          fun y hy => ?_, hl2, ?_⟩
        · rcases List.mem_cons.1 hy with rfl | hy
          · exact Bool.not_eq_true _ ▸ hka
          · exact hl1 y hy
        · unfold upsertRelease
          rw [if_pos hk]
          simp only [List.map_cons, if_neg hka, List.cons_append]
          congr 1
          have := hup
          unfold upsertRelease at this
          rw [if_pos hk'] at this
          exact this

theorem keysNodup_upsertRelease {rs : List Release} {r : Release}
    {upd : Release → Release} (hnd : keysNodup rs)
    (hupd : ∀ y, rkey (upd y) = rkey y) :
    keysNodup (upsertRelease rs r upd) := by
  unfold upsertRelease
  split
  · unfold keysNodup
    rw [List.map_map, List.map_congr_left (g := rkey) ?_]
    · exact hnd
    · intro a _
      by_cases hk : keyMatch r.post_id r.window_id a = true
      · simp [hk, hupd]
      · simp [hk]
  · rename_i hk
    unfold keysNodup
    rw [List.map_cons, List.nodup_cons]
    refine ⟨fun hc => ?_, hnd⟩
    rcases List.mem_map.1 hc with ⟨y, hy, hky⟩
    have h2 : y.post_id = r.post_id ∧ y.window_id = r.window_id := by
      simpa [rkey, Prod.ext_iff] using hky
    exact hk (hasKey_iff.2 ⟨y, hy, h2.1, h2.2⟩)

theorem pRel_map_keyUpd {rs : List Release} {rp w p : ℕ} {upd : Release → Release}
    (hne : rp ≠ p) (hupd : ∀ y, (upd y).post_id = y.post_id) :
    pRel (rs.map fun x => if keyMatch rp w x then upd x else x) p = pRel rs p := by
  induction rs with
  | nil => rfl
  | cons a t ih =>
      simp only [List.map_cons, pRel, List.filter_cons] at ih ⊢
      by_cases hka : keyMatch rp w a = true
      · have hap : a.post_id = rp := (keyMatch_iff.1 hka).1
        rw [if_pos hka]
        have h1 : (decide ((upd a).post_id = p)) = false := by
          simp [hupd a, hap, hne]
        have h2 : (decide (a.post_id = p)) = false := by simp [hap, hne]
        rw [h1, h2]
        exact ih
      · rw [if_neg hka]
        split <;> rw [ih]

theorem pRel_upsertRelease_ne {rs : List Release} {r : Release} {p : ℕ}
    {upd : Release → Release} (hr : r.post_id ≠ p)
    (hupd : ∀ y, (upd y).post_id = y.post_id) :
    pRel (upsertRelease rs r upd) p = pRel rs p := by
  unfold upsertRelease
  split
  · exact pRel_map_keyUpd hr hupd
  · simp only [pRel, List.filter_cons]
    rw [if_neg (by simp [hr])]

theorem pRel_insertIgnore_ne {rs : List Release} {r : Release} {p : ℕ}
    (hr : r.post_id ≠ p) : pRel (insertIgnore rs r) p = pRel rs p := by
  unfold insertIgnore
  split
  · rfl
  · simp only [pRel, List.filter_cons]
    rw [if_neg (by simp [hr])]

/-- Rows of a window other than the upsert target are untouched
(the basis of tick idempotence w.r.t. closed windows). -/
theorem winFilter_map_keyUpd {rs : List Release} {rp w wid : ℕ}
    {upd : Release → Release} (hne : w ≠ wid)
    (hupd : ∀ y, (upd y).window_id = y.window_id) :
    (rs.map fun x => if keyMatch rp w x then upd x else x).filter
        (fun r => decide (r.window_id = wid)) =
      rs.filter (fun r => decide (r.window_id = wid)) := by
  induction rs with
  | nil => rfl
  | cons a t ih =>
      simp only [List.map_cons, List.filter_cons] at ih ⊢
      by_cases hka : keyMatch rp w a = true
      · have haw : a.window_id = w := (keyMatch_iff.1 hka).2
        rw [if_pos hka]
        have h1 : (decide ((upd a).window_id = wid)) = false := by
          simp [hupd a, haw, hne]
        have h2 : (decide (a.window_id = wid)) = false := by simp [haw, hne]
        rw [h1, h2]
        exact ih
      · rw [if_neg hka]
        split <;> rw [ih]

theorem winFilter_upsertRelease_ne {rs : List Release} {r : Release} {wid : ℕ}
    {upd : Release → Release} (hr : r.window_id ≠ wid)
    (hupd : ∀ y, (upd y).window_id = y.window_id) :
    (upsertRelease rs r upd).filter (fun x => decide (x.window_id = wid)) =
      rs.filter (fun x => decide (x.window_id = wid)) := by
  unfold upsertRelease
  split
  · exact winFilter_map_keyUpd hr hupd
  · simp only [List.filter_cons]
    rw [if_neg (by simp [hr])]

/-- A conflicting upsert whose post currently has no published rows and
whose update publishes the row results in exactly one published row. -/
theorem publishedOf_upsert_conflict {rs : List Release} {r : Release} {p W : ℕ}
    {upd : Release → Release}
    (hnd : keysNodup rs) (hr : r.post_id = p) (hw : r.window_id = W)
    (hk : hasKey rs r.post_id r.window_id = true)
    (hemp : publishedOf rs p = [])
    (hupd_p : ∀ y, (upd y).post_id = y.post_id)
    (hupd_s : ∀ y, (upd y).status = RStatus.published) :
    ∃ x0 ∈ rs, x0.post_id = p ∧ x0.window_id = W ∧
      publishedOf (upsertRelease rs r upd) p = [upd x0] := by
  obtain ⟨l1, x0, l2, hrs, h1, h2, hl1, hl2, hup⟩ := upsert_conflict_split hnd hk
  refine ⟨x0, by rw [hrs]; simp, hr ▸ h1, hw ▸ h2, ?_⟩
  rw [hup]
  unfold publishedOf
  rw [List.filter_append, List.filter_cons]
  have hx0 : (decide ((upd x0).post_id = p ∧ (upd x0).status = RStatus.published))
      = true := by
    simp [hupd_p, hupd_s, h1, hr]
  rw [hx0]
  have hfl : ∀ l ⊆ rs, l.filter
      (fun x => decide (x.post_id = p ∧ x.status = RStatus.published)) = [] := by
    intro l hl
    rw [List.filter_eq_nil_iff]
    intro a ha
    have : a ∉ publishedOf rs p := by rw [hemp]; exact List.not_mem_nil a
    rw [mem_publishedOf] at this
    push_neg at this
    simp only [decide_eq_true_eq, not_and]
    intro hap
    exact this (hl ha) hap
  rw [hfl l1 (by rw [hrs]; exact (List.sublist_append_left _ _).subset),
    hfl l2 (by rw [hrs]; intro a ha; simp [ha])]
  simp

theorem keysNodup_insertIgnore {rs : List Release} {r : Release}
    (hnd : keysNodup rs) : keysNodup (insertIgnore rs r) := by
  unfold insertIgnore
  split
  · exact hnd
  · rename_i hk
    unfold keysNodup
    rw [List.map_cons, List.nodup_cons]
    refine ⟨fun hc => ?_, hnd⟩
    rcases List.mem_map.1 hc with ⟨y, hy, hky⟩
    have h2 : y.post_id = r.post_id ∧ y.window_id = r.window_id := by
      simpa [rkey, Prod.ext_iff] using hky
    exact hk (hasKey_iff.2 ⟨y, hy, h2.1, h2.2⟩)

/-! ### dp_items upsert lemmas -/

theorem find?_upsertMap_self {is : List DPItem} {i : DPItem} :
    lookupItem (is.map fun x =>
      if decide (x.post_id = i.post_id) = true then i else x) i.post_id =
      if is.any (fun x => decide (x.post_id = i.post_id)) then some i else none := by
  induction is with
  | nil => rfl
  | cons a t ih =>
      rw [List.map_cons]
      by_cases ha : a.post_id = i.post_id
      · rw [show (if decide (a.post_id = i.post_id) = true then i else a) = i by
          simp [ha]]
        unfold lookupItem
        rw [List.find?_cons_of_pos _ (by simp)]
        simp [ha]
      · rw [show (if decide (a.post_id = i.post_id) = true then i else a) = a by
          simp [ha]]
        unfold lookupItem
        rw [List.find?_cons_of_neg _ (by simp [ha])]
        unfold lookupItem at ih
        rw [ih]
        simp [ha]

theorem lookupItem_upsertItem_self {is : List DPItem} {i : DPItem} :
    lookupItem (upsertItem is i) i.post_id = some i := by
  unfold upsertItem
  split
  · rename_i h
    rw [find?_upsertMap_self, if_pos h]
  · unfold lookupItem
    rw [List.find?_cons_of_pos _ (by simp)]

theorem find?_upsertMap_ne {is : List DPItem} {i : DPItem} {q : ℕ}
    (h : q ≠ i.post_id) :
    lookupItem (is.map fun x =>
      if decide (x.post_id = i.post_id) = true then i else x) q =
      lookupItem is q := by
  induction is with
  | nil => rfl
  | cons a t ih =>
      rw [List.map_cons]
      by_cases ha : a.post_id = i.post_id
      · rw [show (if decide (a.post_id = i.post_id) = true then i else a) = i by
          simp [ha]]
        unfold lookupItem
        rw [List.find?_cons_of_neg _ (by simp; exact fun hc => h hc.symm),
          List.find?_cons_of_neg _ (by simp [ha]; exact fun hc => h hc.symm)]
        exact ih
      · rw [show (if decide (a.post_id = i.post_id) = true then i else a) = a by
          simp [ha]]
        unfold lookupItem
        by_cases haq : a.post_id = q
        · rw [List.find?_cons_of_pos _ (by simp [haq]),
            List.find?_cons_of_pos _ (by simp [haq])]
        · rw [List.find?_cons_of_neg _ (by simp [haq]),
            List.find?_cons_of_neg _ (by simp [haq])]
          exact ih

theorem lookupItem_upsertItem_ne {is : List DPItem} {i : DPItem} {q : ℕ}
    (h : q ≠ i.post_id) : lookupItem (upsertItem is i) q = lookupItem is q := by
  unfold upsertItem
  split
  · exact find?_upsertMap_ne h
  · unfold lookupItem
    rw [List.find?_cons_of_neg _ (by simp; exact fun hc => h hc.symm)]

/-! ### processPost structural lemmas -/

theorem do_deduct_releases (cfg : Cfg) (s : St) (p w : ℕ) (u : ℚ) :
    (do_deduct cfg s p w u).releases = s.releases := rfl

theorem do_deduct_windows (cfg : Cfg) (s : St) (p w : ℕ) (u : ℚ) :
    (do_deduct cfg s p w u).windows = s.windows ∧
    (do_deduct cfg s p w u).next_wid = s.next_wid := ⟨rfl, rfl⟩

theorem processPost_windows (cfg : Cfg) (W : ℕ) (tc : ℕ → ℕ) (ν : ℕ → ℚ)
    (s : St) (q : ℕ) :
    (processPost cfg W tc ν s q).windows = s.windows ∧
    (processPost cfg W tc ν s q).next_wid = s.next_wid := by
  unfold processPost reuseStep chargeStep do_deduct
  split
  · split
    · split
      · exact ⟨rfl, rfl⟩
      · split <;> exact ⟨rfl, rfl⟩
    · split <;> exact ⟨rfl, rfl⟩
  · exact ⟨rfl, rfl⟩

theorem processPost_other {cfg : Cfg} {W : ℕ} {tc : ℕ → ℕ} {ν : ℕ → ℚ}
    {s : St} {q p : ℕ} (hqp : q ≠ p) :
    pRel (processPost cfg W tc ν s q).releases p = pRel s.releases p ∧
    lookupItem (processPost cfg W tc ν s q).items p = lookupItem s.items p := by
  unfold processPost reuseStep chargeStep do_deduct
  split
  · split
    · split
      · exact ⟨pRel_upsertRelease_ne hqp (fun y => rfl), rfl⟩
      · split
        · exact ⟨pRel_upsertRelease_ne hqp (fun y => rfl),
            lookupItem_upsertItem_ne (by simpa using fun hc => hqp hc.symm)⟩
        · exact ⟨rfl, rfl⟩
    · split
      · exact ⟨pRel_upsertRelease_ne hqp (fun y => rfl),
          lookupItem_upsertItem_ne (by simpa using fun hc => hqp hc.symm)⟩
      · exact ⟨rfl, rfl⟩
  · exact ⟨rfl, rfl⟩

theorem keysNodup_processPost {cfg : Cfg} {W : ℕ} {tc : ℕ → ℕ} {ν : ℕ → ℚ}
    {s : St} {q : ℕ} (hnd : keysNodup s.releases) :
    keysNodup (processPost cfg W tc ν s q).releases := by
  unfold processPost reuseStep chargeStep do_deduct
  split
  · split
    · split
      · exact keysNodup_upsertRelease hnd (fun y => rfl)
      · split
        · exact keysNodup_upsertRelease hnd (fun y => rfl)
        · exact hnd
    · split
      · exact keysNodup_upsertRelease hnd (fun y => rfl)
      · exact hnd
  · exact hnd

theorem processPost_of_thr_false {cfg : Cfg} {W : ℕ} {tc : ℕ → ℕ} {ν : ℕ → ℚ}
    {s : St} {p : ℕ} (h : check_threshold cfg (tc p) = false) :
    processPost cfg W tc ν s p = s := by
  simp [processPost, h]

theorem processPost_reuse_eq {cfg : Cfg} {W : ℕ} {tc : ℕ → ℕ} {ν : ℕ → ℚ}
    {s : St} {p : ℕ} {L : Release} (hthr : check_threshold cfg (tc p) = true)
    (hlp : lastPublished s.releases p = some L) (heq : L.true_count = tc p) :
    processPost cfg W tc ν s p = reuseStep W (tc p) L s p := by
  simp [processPost, hthr, hlp, heq]

theorem processPost_charge_of_some {cfg : Cfg} {W : ℕ} {tc : ℕ → ℕ} {ν : ℕ → ℚ}
    {s : St} {p : ℕ} {L : Release} (hthr : check_threshold cfg (tc p) = true)
    (hlp : lastPublished s.releases p = some L) (hne : ¬ L.true_count = tc p) :
    processPost cfg W tc ν s p =
      chargeStep cfg W (tc p) ((tc p : ℚ) + ν p) s p := by
  simp [processPost, hthr, hlp, hne]

theorem processPost_charge_of_none {cfg : Cfg} {W : ℕ} {tc : ℕ → ℕ} {ν : ℕ → ℚ}
    {s : St} {p : ℕ} (hthr : check_threshold cfg (tc p) = true)
    (hlp : lastPublished s.releases p = none) :
    processPost cfg W tc ν s p =
      chargeStep cfg W (tc p) ((tc p : ℚ) + ν p) s p := by
  simp [processPost, hthr, hlp]

theorem chargeStep_of_no_budget {cfg : Cfg} {W t : ℕ} {nv : ℚ} {s : St} {p : ℕ}
    (h : (check_budget cfg s p cfg.epsilon_per_query).1 = false) :
    chargeStep cfg W t nv s p = s := by
  simp [chargeStep, h]

theorem chargeStep_of_budget {cfg : Cfg} {W t : ℕ} {nv : ℚ} {s : St} {p : ℕ}
    (h : (check_budget cfg s p cfg.epsilon_per_query).1 = true) :
    chargeStep cfg W t nv s p =
      do_deduct cfg
        { s with
            releases := upsertRelease s.releases (chargeRow cfg W t nv p) (chargeUpd cfg t nv) }
        p W cfg.epsilon_per_query := by
  simp [chargeStep, h]

theorem publishedOf_cons_self {rs : List Release} {r : Release} {p : ℕ}
    (hr : r.post_id = p) (hs : r.status = RStatus.published) :
    publishedOf (r :: rs) p = r :: publishedOf rs p := by
  simp [publishedOf, List.filter_cons, hr, hs]

theorem publishedOf_cons_draft {rs : List Release} {r : Release} {p : ℕ}
    (hs : r.status = RStatus.draft) :
    publishedOf (r :: rs) p = publishedOf rs p := by
  simp [publishedOf, List.filter_cons, hs]

theorem mem_processPost {cfg : Cfg} {W : ℕ} {tc : ℕ → ℕ} {ν : ℕ → ℚ}
    {s : St} {q : ℕ} {x : Release}
    (hx : x ∈ (processPost cfg W tc ν s q).releases) :
    x ∈ s.releases ∨ (x.window_id = W ∧ x.status = RStatus.published) := by
  unfold processPost reuseStep chargeStep do_deduct at hx
  split at hx
  · split at hx
    · split at hx
      · rcases mem_upsertRelease hx with h | h | ⟨y, _, _, hyw, hxy⟩
        · exact Or.inl h
        · exact Or.inr ⟨by rw [h]; rfl, by rw [h]; rfl⟩
        · exact Or.inr ⟨by rw [hxy]; exact hyw, by rw [hxy]; rfl⟩
      · split at hx
        · rcases mem_upsertRelease hx with h | h | ⟨y, _, _, hyw, hxy⟩
          · exact Or.inl h
          · exact Or.inr ⟨by rw [h]; rfl, by rw [h]; rfl⟩
          · exact Or.inr ⟨by rw [hxy]; exact hyw, by rw [hxy]; rfl⟩
        · exact Or.inl hx
    · split at hx
      · rcases mem_upsertRelease hx with h | h | ⟨y, _, _, hyw, hxy⟩
        · exact Or.inl h
        · exact Or.inr ⟨by rw [h]; rfl, by rw [h]; rfl⟩
        · exact Or.inr ⟨by rw [hxy]; exact hyw, by rw [hxy]; rfl⟩
      · exact Or.inl hx
  · exact Or.inl hx

/-! ### Fold lemmas over the scheduler's per-post loop -/

theorem foldl_processPost_windows (cfg : Cfg) (W : ℕ) (tc : ℕ → ℕ) (ν : ℕ → ℚ)
    (l : List ℕ) (s : St) :
    (l.foldl (processPost cfg W tc ν) s).windows = s.windows ∧
    (l.foldl (processPost cfg W tc ν) s).next_wid = s.next_wid := by
  induction l generalizing s with
  | nil => exact ⟨rfl, rfl⟩
  | cons q t ih =>
      rw [List.foldl_cons]
      obtain ⟨h1, h2⟩ := ih (processPost cfg W tc ν s q)
      obtain ⟨h3, h4⟩ := processPost_windows cfg W tc ν s q
      exact ⟨h1.trans h3, h2.trans h4⟩

theorem foldl_processPost_keysNodup {cfg : Cfg} {W : ℕ} {tc : ℕ → ℕ} {ν : ℕ → ℚ}
    {l : List ℕ} {s : St} (hnd : keysNodup s.releases) :
    keysNodup ((l.foldl (processPost cfg W tc ν) s).releases) := by
  induction l generalizing s with
  | nil => exact hnd
  | cons q t ih =>
      rw [List.foldl_cons]
      exact ih (keysNodup_processPost hnd)

theorem foldl_processPost_other {cfg : Cfg} {W : ℕ} {tc : ℕ → ℕ} {ν : ℕ → ℚ}
    {l : List ℕ} {p : ℕ} (hp : p ∉ l) (s : St) :
    pRel ((l.foldl (processPost cfg W tc ν) s).releases) p = pRel s.releases p ∧
    lookupItem ((l.foldl (processPost cfg W tc ν) s).items) p =
      lookupItem s.items p := by
  induction l generalizing s with
  | nil => exact ⟨rfl, rfl⟩
  | cons q t ih =>
      rw [List.foldl_cons]
      have hqp : q ≠ p := fun hc => hp (hc ▸ List.mem_cons_self q t)
      have hpt : p ∉ t := fun hc => hp (List.mem_cons_of_mem q hc)
      obtain ⟨h1, h2⟩ := ih hpt (processPost cfg W tc ν s q)
      obtain ⟨h3, h4⟩ := processPost_other (s := s) (q := q) (p := p) hqp
      exact ⟨h1.trans h3, h2.trans h4⟩

theorem foldl_processPost_mem {cfg : Cfg} {W : ℕ} {tc : ℕ → ℕ} {ν : ℕ → ℚ}
    {l : List ℕ} {s : St} {x : Release}
    (hx : x ∈ (l.foldl (processPost cfg W tc ν) s).releases) :
    x ∈ s.releases ∨ (x.window_id = W ∧ x.status = RStatus.published) := by
  induction l generalizing s with
  | nil => exact Or.inl hx
  | cons q t ih =>
      rw [List.foldl_cons] at hx
      rcases ih hx with h | h
      · exact mem_processPost h
      · exact Or.inr h

/-- Splitting the scheduler loop at one tracked post: everything the
per-post step sees about post p in mid-loop state equals what the
pre-tick state says about p, and the loop's final answer about p is the
per-post step's answer. -/
theorem foldl_processPost_at (cfg : Cfg) (W : ℕ) (tc : ℕ → ℕ) (ν : ℕ → ℚ)
    {l : List ℕ} {p : ℕ} (hl : l.Nodup) (hp : p ∈ l) (s : St)
    (hknd : keysNodup s.releases) :
    ∃ sA : St,
      pRel sA.releases p = pRel s.releases p ∧
      lookupItem sA.items p = lookupItem s.items p ∧
      keysNodup sA.releases ∧
      pRel ((l.foldl (processPost cfg W tc ν) s).releases) p
        = pRel ((processPost cfg W tc ν sA p).releases) p ∧
      lookupItem ((l.foldl (processPost cfg W tc ν) s).items) p
        = lookupItem ((processPost cfg W tc ν sA p).items) p := by
  obtain ⟨l1, l2, rfl⟩ := List.append_of_mem hp
  have hnd12 := (List.nodup_cons.1 (List.nodup_middle.1 hl)).1
  have hp1 : p ∉ l1 := fun hc => hnd12 (List.mem_append.2 (Or.inl hc))
  have hp2 : p ∉ l2 := fun hc => hnd12 (List.mem_append.2 (Or.inr hc))
  rw [List.foldl_append, List.foldl_cons]
  obtain ⟨e1, e2⟩ := foldl_processPost_other (l := l1) hp1 s
  refine ⟨l1.foldl (processPost cfg W tc ν) s, e1, e2,
    foldl_processPost_keysNodup hknd, ?_, ?_⟩
  · exact (foldl_processPost_other hp2 _).1
  · exact (foldl_processPost_other hp2 _).2

/-! ### Window-selection lemmas -/

theorem activeWindow_mem {s : St} {W : Window} (h : activeWindow s = some W) :
    W ∈ s.windows ∧ W.status = WStatus.active := by
  rcases foldl_maxByKey_mem _ _ _ _ h with hy | hy
  · rw [List.mem_filter] at hy
    exact ⟨hy.1, by simpa using hy.2⟩
  · exact Option.noConfusion hy

theorem activeWindow_none_no_active {s : St} (h : activeWindow s = none) :
    ∀ w ∈ s.windows, w.status ≠ WStatus.active := by
  have hf := (foldl_maxByKey_none _ _ _ h).2
  intro w hw hact
  have : w ∈ s.windows.filter (fun w => decide (w.status = WStatus.active)) :=
    List.mem_filter.2 ⟨hw, by simp [hact]⟩
  rw [hf] at this
  exact List.not_mem_nil w this

theorem tick_of_no_active {cfg : Cfg} {tc : ℕ → ℕ} {ν : ℕ → ℚ} {now : ℕ} {s : St}
    (h : activeWindow s = none) : tick cfg tc ν now s = createWindow cfg now s := by
  unfold tick
  rw [h]

theorem tick_of_active {cfg : Cfg} {tc : ℕ → ℕ} {ν : ℕ → ℚ} {now : ℕ} {s : St}
    {W : Window} (h : activeWindow s = some W) :
    tick cfg tc ν now s =
      createWindow cfg now
        { (trackedPosts s).foldl (processPost cfg W.window_id tc ν) s with
            windows := closeWin W.window_id
              (((trackedPosts s).foldl (processPost cfg W.window_id tc ν) s).windows) } := by
  unfold tick
  rw [h]

theorem tick_releases_of_active {cfg : Cfg} {tc : ℕ → ℕ} {ν : ℕ → ℚ} {now : ℕ}
    {s : St} {W : Window} (h : activeWindow s = some W) :
    (tick cfg tc ν now s).releases =
      ((trackedPosts s).foldl (processPost cfg W.window_id tc ν) s).releases := by
  rw [tick_of_active h]
  rfl

theorem tick_items_of_active {cfg : Cfg} {tc : ℕ → ℕ} {ν : ℕ → ℚ} {now : ℕ}
    {s : St} {W : Window} (h : activeWindow s = some W) :
    (tick cfg tc ν now s).items =
      ((trackedPosts s).foldl (processPost cfg W.window_id tc ν) s).items := by
  rw [tick_of_active h]
  rfl

/-! ### Characterization of one per-post scheduler step -/

/-- What one per-post step does to post p's published rows and budget
row, assuming the table facts that hold in reachable states: distinct
upsert keys, and any pre-existing row at (p, W) is an api draft of a
post with no published history. -/
theorem processPost_char (cfg : Cfg) (W : ℕ) (tc : ℕ → ℕ) (ν : ℕ → ℚ)
    (s : St) (p : ℕ)
    (hnd : keysNodup s.releases)
    (hdraft : ∀ r ∈ s.releases, r.post_id = p → r.window_id = W →
        r.status = RStatus.draft ∧ publishedOf s.releases p = []) :
    processPost cfg W tc ν s p = s ∨
    (∃ L, lastPublished s.releases p = some L ∧ L.true_count = tc p ∧
       check_threshold cfg (tc p) = true ∧
       (processPost cfg W tc ν s p).items = s.items ∧
       publishedOf (processPost cfg W tc ν s p).releases p =
         reuseRow W (tc p) L p :: publishedOf s.releases p) ∨
    (∃ nv m,
       check_threshold cfg (tc p) = true ∧
       (check_budget cfg s p cfg.epsilon_per_query).1 = true ∧
       (∀ L, lastPublished s.releases p = some L → L.true_count ≠ tc p) ∧
       (processPost cfg W tc ν s p).items =
         upsertItem s.items ⟨p, W,
           decide (cfg.lifetime_cap -
             (sumEpsL (processPost cfg W tc ν s p).releases p + cfg.epsilon_per_query)
               < cfg.epsilon_per_query),
           sumEpsL (processPost cfg W tc ν s p).releases p + cfg.epsilon_per_query⟩ ∧
       (publishedOf (processPost cfg W tc ν s p).releases p =
          chargeRow cfg W (tc p) nv p :: publishedOf s.releases p ∨
        (publishedOf s.releases p = [] ∧
         publishedOf (processPost cfg W tc ν s p).releases p =
           [⟨p, W, tc p, some nv, cfg.epsilon_per_query, m, RStatus.published⟩]))) := by
  by_cases hthr : check_threshold cfg (tc p) = true
  · cases hlp : lastPublished s.releases p with
    | some L =>
        have hemp_ne : publishedOf s.releases p ≠ [] := by
          intro hc
          rw [lastPublished_of_empty hc] at hlp
          exact Option.noConfusion hlp
        have hkf : hasKey s.releases p W = false := by
          rw [← Bool.not_eq_true, hasKey_iff]
          rintro ⟨y, hy, hy1, hy2⟩
          exact hemp_ne (hdraft y hy hy1 hy2).2
        by_cases heq : L.true_count = tc p
        · right; left
          rw [processPost_reuse_eq hthr hlp heq]
          refine ⟨L, rfl, heq, hthr, rfl, ?_⟩
          show publishedOf (upsertRelease s.releases (reuseRow W (tc p) L p) (reuseUpd L)) p = _
          rw [upsertRelease_fresh hkf]
          exact publishedOf_cons_self rfl rfl
        · rw [processPost_charge_of_some hthr hlp heq]
          by_cases hcb : (check_budget cfg s p cfg.epsilon_per_query).1 = true
          · right; right
            rw [chargeStep_of_budget hcb]
            refine ⟨(tc p : ℚ) + ν p, true, hthr, hcb, ?_, ?_, ?_⟩
            · intro L' hL'
              rw [← Option.some.inj hL']
              exact heq
            · rfl
            · left
              show publishedOf
                  (upsertRelease s.releases (chargeRow cfg W (tc p) ((tc p : ℚ) + ν p) p)
                    (chargeUpd cfg (tc p) ((tc p : ℚ) + ν p))) p = _
              rw [upsertRelease_fresh hkf]
              exact publishedOf_cons_self rfl rfl
          · left
            exact chargeStep_of_no_budget (Bool.not_eq_true _ ▸ hcb)
    | none =>
        have hemp : publishedOf s.releases p = [] := lastPublished_none hlp
        rw [processPost_charge_of_none hthr hlp]
        by_cases hcb : (check_budget cfg s p cfg.epsilon_per_query).1 = true
        · right; right
          rw [chargeStep_of_budget hcb]
          by_cases hk : hasKey s.releases p W = true
          · obtain ⟨x0, hx0mem, hx01, hx02, hpub⟩ :=
              @publishedOf_upsert_conflict s.releases
                (chargeRow cfg W (tc p) ((tc p : ℚ) + ν p) p) p W
                (chargeUpd cfg (tc p) ((tc p : ℚ) + ν p))
                hnd rfl rfl hk hemp (fun y => rfl) (fun y => rfl)
            refine ⟨(tc p : ℚ) + ν p, x0.meets_threshold, hthr, hcb, ?_, rfl, Or.inr ⟨hemp, ?_⟩⟩
            · exact fun L' hL' => Option.noConfusion hL'
            · show publishedOf
                  (upsertRelease s.releases (chargeRow cfg W (tc p) ((tc p : ℚ) + ν p) p)
                    (chargeUpd cfg (tc p) ((tc p : ℚ) + ν p))) p = _
              have hpub2 : publishedOf
                  (upsertRelease s.releases (chargeRow cfg W (tc p) ((tc p : ℚ) + ν p) p)
                    (chargeUpd cfg (tc p) ((tc p : ℚ) + ν p))) p =
                  [chargeUpd cfg (tc p) ((tc p : ℚ) + ν p) x0] := hpub
              rw [hpub2]
              congr 1
              cases x0 with
              | mk a b c d e f g =>
                  simp only [Release.post_id] at hx01
                  simp only [Release.window_id] at hx02
                  simp [chargeUpd, chargeRow, hx01, hx02]
          · refine ⟨(tc p : ℚ) + ν p, true, hthr, hcb, ?_, rfl, Or.inl ?_⟩
            · exact fun L' hL' => Option.noConfusion hL'
            · show publishedOf
                  (upsertRelease s.releases (chargeRow cfg W (tc p) ((tc p : ℚ) + ν p) p)
                    (chargeUpd cfg (tc p) ((tc p : ℚ) + ν p))) p = _
              rw [upsertRelease_fresh (Bool.not_eq_true _ ▸ hk)]
              exact publishedOf_cons_self rfl rfl
        · left
          exact chargeStep_of_no_budget (Bool.not_eq_true _ ▸ hcb)
  · left
    exact processPost_of_thr_false (Bool.not_eq_true _ ▸ hthr)

/-! ### The state invariant of reachable states -/

/-- Structural invariant maintained by first boot, scheduler ticks and
api queries.  `chain` is the noise-reuse invariant itself. -/
structure Inv (s : St) : Prop where
  wlt : ∀ w ∈ s.windows, w.window_id < s.next_wid
  wnd : (s.windows.map Window.window_id).Nodup
  wmax : ∀ w ∈ s.windows, w.status = WStatus.active →
           ∀ w2 ∈ s.windows, w2.window_id ≤ w.window_id
  rlt : ∀ r ∈ s.releases, r.window_id < s.next_wid
  knd : keysNodup s.releases
  rpub : ∀ r ∈ s.releases, r.status = RStatus.published →
           ∀ w ∈ s.windows, w.status = WStatus.active → r.window_id < w.window_id
  rdraftW : ∀ r ∈ s.releases, r.status = RStatus.draft →
           ∀ w ∈ s.windows, w.status = WStatus.active → r.window_id = w.window_id →
           publishedOf s.releases r.post_id = []
  chain : ∀ p, PChain (publishedOf s.releases p)

theorem check_budget_congr {cfg : Cfg} {s1 s2 : St} {p : ℕ} {n : ℚ}
    (h1 : pRel s1.releases p = pRel s2.releases p)
    (h2 : lookupItem s1.items p = lookupItem s2.items p) :
    check_budget cfg s1 p n = check_budget cfg s2 p n := by
  unfold check_budget
  rw [sumEpsL_congr h1, h2]

theorem sumEpsL_congr_pub {rs rs' : List Release} {p : ℕ}
    (h : publishedOf rs p = publishedOf rs' p) : sumEpsL rs p = sumEpsL rs' p := by
  unfold sumEpsL
  rw [h]

/-- Any pre-existing row at (p, active window) is an api draft of a
post with no published history. -/
theorem hdraft_of_inv {s : St} {W : Window} (hInv : Inv s)
    (hW : activeWindow s = some W) (p : ℕ) :
    ∀ r ∈ s.releases, r.post_id = p → r.window_id = W.window_id →
        r.status = RStatus.draft ∧ publishedOf s.releases p = [] := by
  intro r hr hrp hrw
  have hWm := activeWindow_mem hW
  have hst : r.status = RStatus.draft := by
    cases hs : r.status with
    | draft => rfl
    | published =>
        have := hInv.rpub r hr hs W hWm.1 hWm.2
        omega
  exact ⟨hst, by rw [← hrp]; exact hInv.rdraftW r hr hst W hWm.1 hWm.2 hrw⟩

/-- What one full tick does to post p's published rows and budget row:
either untouched, or extended by a reuse row (same noisy value, zero
epsilon, no ledger write), or extended by a charged row together with
the corresponding dp_items upsert. -/
theorem tick_pub_char {cfg : Cfg} {tc : ℕ → ℕ} {ν : ℕ → ℚ} {now : ℕ}
    {s : St} {W : Window} (hW : activeWindow s = some W) (hInv : Inv s) (p : ℕ) :
    (publishedOf (tick cfg tc ν now s).releases p = publishedOf s.releases p ∧
     lookupItem (tick cfg tc ν now s).items p = lookupItem s.items p) ∨
    (∃ L, lastPublished s.releases p = some L ∧ L.true_count = tc p ∧
       check_threshold cfg (tc p) = true ∧
       lookupItem (tick cfg tc ν now s).items p = lookupItem s.items p ∧
       publishedOf (tick cfg tc ν now s).releases p =
         reuseRow W.window_id (tc p) L p :: publishedOf s.releases p) ∨
    (∃ nv m,
       check_threshold cfg (tc p) = true ∧
       (check_budget cfg s p cfg.epsilon_per_query).1 = true ∧
       (∀ L, lastPublished s.releases p = some L → L.true_count ≠ tc p) ∧
       lookupItem (tick cfg tc ν now s).items p =
         some ⟨p, W.window_id,
           decide (cfg.lifetime_cap -
             (sumEpsL (tick cfg tc ν now s).releases p + cfg.epsilon_per_query)
               < cfg.epsilon_per_query),
           sumEpsL (tick cfg tc ν now s).releases p + cfg.epsilon_per_query⟩ ∧
       (publishedOf (tick cfg tc ν now s).releases p =
          chargeRow cfg W.window_id (tc p) nv p :: publishedOf s.releases p ∨
        (publishedOf s.releases p = [] ∧
         publishedOf (tick cfg tc ν now s).releases p =
           [⟨p, W.window_id, tc p, some nv, cfg.epsilon_per_query, m,
              RStatus.published⟩]))) := by
  have etickrel := @tick_releases_of_active cfg tc ν now _ _ hW
  have etickit := @tick_items_of_active cfg tc ν now _ _ hW
  by_cases hp : p ∈ trackedPosts s
  · obtain ⟨sA, e1, e2, eknd, efin1, efin2⟩ :=
      foldl_processPost_at cfg W.window_id tc ν (List.nodup_dedup _) hp s hInv.knd
    have hdr : ∀ r ∈ sA.releases, r.post_id = p → r.window_id = W.window_id →
        r.status = RStatus.draft ∧ publishedOf sA.releases p = [] := by
      intro r hr hrp hrw
      have hrs : r ∈ s.releases := by
        have hm : r ∈ pRel sA.releases p := mem_pRel.2 ⟨hr, hrp⟩
        rw [e1] at hm
        exact (mem_pRel.1 hm).1
      obtain ⟨h1, h2⟩ := hdraft_of_inv hInv hW p r hrs hrp hrw
      exact ⟨h1, by rw [publishedOf_congr e1]; exact h2⟩
    have epub_f : publishedOf (tick cfg tc ν now s).releases p =
        publishedOf ((processPost cfg W.window_id tc ν sA p).releases) p := by
      rw [etickrel]
      exact publishedOf_congr efin1
    have eit_f : lookupItem (tick cfg tc ν now s).items p =
        lookupItem ((processPost cfg W.window_id tc ν sA p).items) p := by
      rw [etickit]
      exact efin2
    have elast : lastPublished sA.releases p = lastPublished s.releases p :=
      lastPublished_congr e1
    have echeck : check_budget cfg sA p cfg.epsilon_per_query =
        check_budget cfg s p cfg.epsilon_per_query := check_budget_congr e1 e2
    have epubA : publishedOf sA.releases p = publishedOf s.releases p :=
      publishedOf_congr e1
    rcases processPost_char cfg W.window_id tc ν sA p eknd hdr with
      hcase | ⟨L, hL1, hL2, hL3, hL4, hL5⟩ | ⟨nv, m, h1, h2, h3, h4, h5⟩
    · left
      constructor
      · rw [epub_f, hcase, epubA]
      · rw [eit_f, hcase, e2]
    · right; left
      refine ⟨L, by rw [← elast]; exact hL1, hL2, hL3, ?_, ?_⟩
      · rw [eit_f, hL4, e2]
      · rw [epub_f, hL5, epubA]
    · right; right
      have esum : sumEpsL (tick cfg tc ν now s).releases p =
          sumEpsL ((processPost cfg W.window_id tc ν sA p).releases) p :=
        sumEpsL_congr_pub epub_f
      refine ⟨nv, m, h1, by rw [← echeck]; exact h2,
        fun L hL => h3 L (by rw [elast]; exact hL), ?_, ?_⟩
      · rw [eit_f, h4, esum]
        exact lookupItem_upsertItem_self
      · rcases h5 with h5 | ⟨h5a, h5b⟩
        · exact Or.inl (by rw [epub_f, h5, epubA])
        · exact Or.inr ⟨by rw [← epubA]; exact h5a, by rw [epub_f, h5b]⟩
  · left
    obtain ⟨f1, f2⟩ := foldl_processPost_other (l := trackedPosts s) hp s
    constructor
    · rw [etickrel]
      exact publishedOf_congr f1
    · rw [etickit]
      exact f2

/-! ### Extending a noise-reuse chain -/

theorem PChain_nil : PChain [] := by
  intro r1 h1
  exact absurd h1 (List.not_mem_nil r1)

theorem PChain_singleton (x : Release) : PChain [x] := by
  intro r1 h1 r2 h2 hw _ _
  rw [List.mem_singleton] at h1 h2
  rw [h1, h2] at hw
  omega

/-- Appending a new maximal-window row to a chain preserves the chain,
provided the new row either disagrees with the previous last row on the
true value, or carries exactly its noisy value with zero epsilon. -/
theorem PChain_cons {l : List Release} {L n : Release}
    (hP : PChain l) (hmemL : L ∈ l)
    (hmax : ∀ r ∈ l, r.window_id ≤ L.window_id)
    (hnd : (l.map Release.window_id).Nodup)
    (hlt : ∀ r ∈ l, r.window_id < n.window_id)
    (hcase : n.true_count ≠ L.true_count ∨
      (n.noisy_count = L.noisy_count ∧ n.epsilon_used = 0)) :
    PChain (n :: l) := by
  intro r1 h1 r2 h2 hw hg ht
  rcases List.mem_cons.1 h2 with h2e | h2m
  · rcases List.mem_cons.1 h1 with h1e | h1m
    · rw [h1e, h2e] at hw
      omega
    · have hgL := hg L (List.mem_cons_of_mem _ hmemL)
      have hLn : L.window_id < n.window_id := hlt L hmemL
      have hr1L : r1.window_id = L.window_id := by
        have h' := hmax r1 h1m
        rw [h2e] at hw hgL
        omega
      have hr1 : r1 = L := List.inj_on_of_nodup_map hnd h1m hmemL hr1L
      rcases hcase with hc | ⟨hc1, hc2⟩
      · rw [hr1, h2e] at ht
        exact absurd ht.symm hc
      · rw [hr1, h2e]
        exact ⟨hc1, hc2⟩
  · rcases List.mem_cons.1 h1 with h1e | h1m
    · have h' := hlt r2 h2m
      rw [h1e] at hw
      omega
    · exact hP r1 h1m r2 h2m hw
        (fun r3 h3 => hg r3 (List.mem_cons_of_mem _ h3)) ht

/-- Distinct upsert keys make the window ids of one post's published
rows distinct. -/
theorem pubOf_wid_nodup {rs : List Release} {p : ℕ} (hnd : keysNodup rs) :
    ((publishedOf rs p).map Release.window_id).Nodup := by
  have hsub : (publishedOf rs p).Sublist rs := List.filter_sublist rs
  have hknd : ((publishedOf rs p).map rkey).Nodup :=
    (hsub.map rkey).nodup hnd
  have hkey : (publishedOf rs p).map rkey =
      ((publishedOf rs p).map Release.window_id).map (fun w => (p, w)) := by
    rw [List.map_map]
    apply List.map_congr_left
    intro r hr
    have := (mem_publishedOf.1 hr).2.1
    simp [rkey, this]
  rw [hkey] at hknd
  exact hknd.of_map _

/-! ### Window bookkeeping -/

theorem closeWin_ids (wid : ℕ) (ws : List Window) :
    (closeWin wid ws).map Window.window_id = ws.map Window.window_id := by
  unfold closeWin
  rw [List.map_map]
  apply List.map_congr_left
  intro w _
  by_cases hw : w.window_id = wid
  · simp [hw]
  · simp [hw]

theorem mem_closeWin {x : Window} {wid : ℕ} {ws : List Window}
    (hx : x ∈ closeWin wid ws) :
    ∃ w ∈ ws, x.window_id = w.window_id ∧
      (x.status = WStatus.active → w.status = WStatus.active ∧ w.window_id ≠ wid) := by
  unfold closeWin at hx
  rcases List.mem_map.1 hx with ⟨w, hw, hxw⟩
  by_cases hid : w.window_id = wid
  · rw [if_pos (by simp [hid])] at hxw
    refine ⟨w, hw, by rw [← hxw], fun hc => ?_⟩
    rw [← hxw] at hc
    exact absurd hc (by simp)
  · rw [if_neg (by simp [hid])] at hxw
    exact ⟨w, hw, by rw [← hxw], fun hc => ⟨by rw [hxw]; exact hc, hid⟩⟩

theorem tick_windows_of_active {cfg : Cfg} {tc : ℕ → ℕ} {ν : ℕ → ℚ} {now : ℕ}
    {s : St} {W : Window} (h : activeWindow s = some W) :
    (tick cfg tc ν now s).windows =
      closeWin W.window_id s.windows ++
        [⟨s.next_wid, now, now + cfg.window_seconds, WStatus.active⟩] ∧
    (tick cfg tc ν now s).next_wid = s.next_wid + 1 := by
  rw [tick_of_active h]
  obtain ⟨h1, h2⟩ := foldl_processPost_windows cfg W.window_id tc ν (trackedPosts s) s
  unfold createWindow
  constructor
  · show closeWin W.window_id _ ++ _ = _
    rw [h1, h2]
  · show _ + 1 = _
    rw [h2]

theorem createWindow_state (cfg : Cfg) (now : ℕ) (s : St) :
    (createWindow cfg now s).windows =
      s.windows ++ [⟨s.next_wid, now, now + cfg.window_seconds, WStatus.active⟩] ∧
    (createWindow cfg now s).next_wid = s.next_wid + 1 ∧
    (createWindow cfg now s).releases = s.releases ∧
    (createWindow cfg now s).items = s.items :=
  ⟨rfl, rfl, rfl, rfl⟩

/-! ### Invariant preservation -/

theorem inv_init : Inv st0 := by
  refine ⟨?_, ?_, ?_, ?_, ?_, ?_, ?_, ?_⟩
  · intro w hw
    exact absurd hw (List.not_mem_nil w)
  · exact List.nodup_nil
  · intro w hw
    exact absurd hw (List.not_mem_nil w)
  · intro r hr
    exact absurd hr (List.not_mem_nil r)
  · exact List.nodup_nil
  · intro r hr
    exact absurd hr (List.not_mem_nil r)
  · intro r hr
    exact absurd hr (List.not_mem_nil r)
  · intro p r1 h1
    exact absurd h1 (List.not_mem_nil r1)

theorem inv_tick {cfg : Cfg} {tc : ℕ → ℕ} {ν : ℕ → ℚ} {now : ℕ} {s : St}
    (h : Inv s) : Inv (tick cfg tc ν now s) := by
  cases hW : activeWindow s with
  | none =>
      rw [tick_of_no_active hW]
      have hnoact := activeWindow_none_no_active hW
      refine ⟨?_, ?_, ?_, ?_, ?_, ?_, ?_, ?_⟩
      · intro w hw
        rcases List.mem_append.1 hw with hw | hw
        · have := h.wlt w hw
          show w.window_id < s.next_wid + 1
          omega
        · rw [List.mem_singleton] at hw
          rw [hw]
          show s.next_wid < s.next_wid + 1
          omega
      · show ((s.windows ++ [_]).map Window.window_id).Nodup
        rw [List.map_append]
        refine List.Nodup.append h.wnd (List.nodup_singleton _) ?_
        intro a ha hb
        rcases List.mem_map.1 ha with ⟨w, hw, hwa⟩
        simp only [List.map_cons, List.map_nil, List.mem_singleton] at hb
        have := h.wlt w hw
        omega
      · intro w hw hact w2 hw2
        rcases List.mem_append.1 hw with hw | hw
        · exact absurd hact (hnoact w hw)
        · rw [List.mem_singleton] at hw
          rcases List.mem_append.1 hw2 with hw2 | hw2
          · have := h.wlt w2 hw2
            rw [hw]
            show w2.window_id ≤ s.next_wid
            omega
          · rw [List.mem_singleton] at hw2
            rw [hw, hw2]
      · intro r hr
        have := h.rlt r hr
        show r.window_id < s.next_wid + 1
        omega
      · exact h.knd
      · intro r hr hst w hw hact
        rcases List.mem_append.1 hw with hw | hw
        · exact absurd hact (hnoact w hw)
        · rw [List.mem_singleton] at hw
          rw [hw]
          exact h.rlt r hr
      · intro r hr hst w hw hact hrw
        rcases List.mem_append.1 hw with hw | hw
        · exact absurd hact (hnoact w hw)
        · rw [List.mem_singleton] at hw
          have := h.rlt r hr
          rw [hw] at hrw
          simp at hrw
          omega
      · exact h.chain
  | some W =>
      have hWmem := activeWindow_mem hW
      have hWlt := h.wlt W hWmem.1
      obtain ⟨hwin, hnext⟩ := @tick_windows_of_active cfg tc ν now _ _ hW
      have hrel := @tick_releases_of_active cfg tc ν now _ _ hW
      have hmemrel : ∀ x ∈ (tick cfg tc ν now s).releases,
          x ∈ s.releases ∨ (x.window_id = W.window_id ∧ x.status = RStatus.published) := by
        intro x hx
        rw [hrel] at hx
        exact foldl_processPost_mem hx
      have hrlt' : ∀ x ∈ (tick cfg tc ν now s).releases, x.window_id < s.next_wid := by
        intro x hx
        rcases hmemrel x hx with hx | ⟨hx, _⟩
        · exact h.rlt x hx
        · rw [hx]
          exact hWlt
      have hact' : ∀ w ∈ (tick cfg tc ν now s).windows,
          w.status = WStatus.active → w.window_id = s.next_wid := by
        intro w hw hact
        rw [hwin] at hw
        rcases List.mem_append.1 hw with hw | hw
        · obtain ⟨w0, hw0, hid, himp⟩ := mem_closeWin hw
          obtain ⟨hw0act, hw0ne⟩ := himp hact
          have h1 := h.wmax w0 hw0 hw0act W hWmem.1
          have h2 := h.wmax W hWmem.1 hWmem.2 w0 hw0
          omega
        · rw [List.mem_singleton] at hw
          rw [hw]
      refine ⟨?_, ?_, ?_, ?_, ?_, ?_, ?_, ?_⟩
      · intro w hw
        rw [hwin] at hw
        rw [hnext]
        rcases List.mem_append.1 hw with hw | hw
        · obtain ⟨w0, hw0, hid, _⟩ := mem_closeWin hw
          have := h.wlt w0 hw0
          omega
        · rw [List.mem_singleton] at hw
          rw [hw]
          show s.next_wid < s.next_wid + 1
          omega
      · rw [hwin, List.map_append, closeWin_ids]
        refine List.Nodup.append h.wnd (List.nodup_singleton _) ?_
        intro a ha hb
        rcases List.mem_map.1 ha with ⟨w, hw, hwa⟩
        simp only [List.map_cons, List.map_nil, List.mem_singleton] at hb
        have := h.wlt w hw
        omega
      · intro w hw hact w2 hw2
        have hwid := hact' w hw hact
        rw [hwin] at hw2
        rw [hwid]
        rcases List.mem_append.1 hw2 with hw2 | hw2
        · obtain ⟨w0, hw0, hid, _⟩ := mem_closeWin hw2
          have := h.wlt w0 hw0
          omega
        · rw [List.mem_singleton] at hw2
          rw [hw2]
      · intro r hr
        have := hrlt' r hr
        rw [hnext]
        omega
      · rw [hrel]
        exact foldl_processPost_keysNodup h.knd
      · intro r hr hst w hw hact
        have := hrlt' r hr
        rw [hact' w hw hact]
        exact this
      · intro r hr hst w hw hact hrw
        have := hrlt' r hr
        rw [hact' w hw hact] at hrw
        omega
      · intro p
        have hbound : ∀ r ∈ publishedOf s.releases p, r.window_id < W.window_id := by
          intro r hr
          obtain ⟨hrm, _, hrs⟩ := mem_publishedOf.1 hr
          exact h.rpub r hrm hrs W hWmem.1 hWmem.2
        rcases tick_pub_char hW h p with
          ⟨hpub, _⟩ | ⟨L, hL1, hL2, _, _, hpub⟩ | ⟨nv, m, _, _, hne, _, hpub⟩
        · rw [hpub]
          exact h.chain p
        · rw [hpub]
          have hLm := lastPublished_mem hL1
          exact PChain_cons (h.chain p) hLm (lastPublished_ge hL1)
            (pubOf_wid_nodup h.knd) hbound
            (Or.inr ⟨rfl, rfl⟩)
        · rcases hpub with hpub | ⟨hemp, hpub⟩
          · rw [hpub]
            cases hlp : lastPublished s.releases p with
            | none =>
                rw [lastPublished_none hlp]
                rw [lastPublished_none hlp] at hpub
                exact PChain_singleton _
            | some L =>
                exact PChain_cons (h.chain p) (lastPublished_mem hlp)
                  (lastPublished_ge hlp) (pubOf_wid_nodup h.knd) hbound
                  (Or.inl (fun hc => hne L hlp (by rw [← hc]; rfl)))
          · rw [hpub]
            exact PChain_singleton _

/-! ### Query-side state characterization -/

theorem currentWindowApi_mem {s : St} {now cw : ℕ}
    (h : currentWindowApi s now = some cw) :
    ∃ w ∈ s.windows, w.window_id = cw := by
  unfold currentWindowApi at h
  split at h
  · rename_i w hw
    rcases foldl_maxByKey_mem _ _ _ _ hw with hm | hm
    · exact ⟨w, (List.mem_filter.1 hm).1, Option.some.inj h⟩
    · exact Option.noConfusion hm
  · split at h
    · rename_i w hw
      rcases foldl_maxByKey_mem _ _ _ _ hw with hm | hm
      · exact ⟨w, (List.mem_filter.1 hm).1, Option.some.inj h⟩
      · exact Option.noConfusion hm
    · exact Option.noConfusion h

/-- The read path either leaves the database untouched, or (first query
of an untracked post whose current true count meets the threshold)
inserts exactly one draft tracking row with NULL noisy_count and zero
epsilon. -/
theorem get_dp_count_state (cfg : Cfg) (s : St) (p now t : ℕ) :
    (get_dp_count cfg s p now t).2 = s ∨
    (∃ cw, currentWindowApi s now = some cw ∧
      s.releases.any (fun r => decide (r.post_id = p)) = false ∧
      check_threshold cfg t = true ∧
      (get_dp_count cfg s p now t).2 =
        { s with releases :=
            insertIgnore s.releases ⟨p, cw, t, none, 0, true, RStatus.draft⟩ }) := by
  unfold get_dp_count
  cases hcw : currentWindowApi s now with
  | none => exact Or.inl rfl
  | some cw =>
      dsimp only
      by_cases htr : s.releases.any (fun r => decide (r.post_id = p)) = true
      · left
        rw [if_pos htr]
        split
        · split
          · split
            · split
              · rfl
              · rfl
            · rfl
          · rfl
        · split
          · split
            · split
              · rfl
              · rfl
            · rfl
          · split
            · split
              · split
                · rfl
                · rfl
              · rfl
            · rfl
      · rw [if_neg htr]
        by_cases hthr : check_threshold cfg t = true
        · right
          rw [if_pos hthr]
          exact ⟨cw, rfl, Bool.not_eq_true _ ▸ htr, hthr, rfl⟩
        · left
          rw [if_neg hthr]

theorem inv_query {cfg : Cfg} {s : St} {p now t : ℕ} (h : Inv s) :
    Inv (get_dp_count cfg s p now t).2 := by
  rcases get_dp_count_state cfg s p now t with hst | ⟨cw, hcw, huntr, hthr, hst⟩
  · rw [hst]
    exact h
  · rw [hst]
    unfold insertIgnore
    split
    · exact h
    · have hpempty : ∀ q, publishedOf
          (Release.mk p cw t none 0 true RStatus.draft :: s.releases) q =
          publishedOf s.releases q := fun q => publishedOf_cons_draft rfl
      have hnew_nopub : publishedOf s.releases p = [] := by
        unfold publishedOf
        rw [List.filter_eq_nil_iff]
        intro r hr hc
        simp only [decide_eq_true_eq] at hc
        have : s.releases.any (fun r => decide (r.post_id = p)) = true :=
          List.any_eq_true.2 ⟨r, hr, by simp [hc.1]⟩
        rw [huntr] at this
        exact Bool.noConfusion this
      obtain ⟨wcw, hwcw, hwid⟩ := currentWindowApi_mem hcw
      refine ⟨h.wlt, h.wnd, h.wmax, ?_, ?_, ?_, ?_, ?_⟩
      · intro r hr
        rcases List.mem_cons.1 hr with rfl | hr
        · show cw < s.next_wid
          rw [← hwid]
          exact h.wlt wcw hwcw
        · exact h.rlt r hr
      · have := @keysNodup_insertIgnore s.releases
          (Release.mk p cw t none 0 true RStatus.draft) h.knd
        unfold insertIgnore at this
        rw [if_neg (by rename_i hk; exact hk)] at this
        exact this
      · intro r hr hst' w hw hact
        rcases List.mem_cons.1 hr with rfl | hr
        · exact absurd hst' (by simp)
        · exact h.rpub r hr hst' w hw hact
      · intro r hr hst' w hw hact hrw
        rcases List.mem_cons.1 hr with rfl | hr
        · show publishedOf _ p = []
          rw [hpempty p]
          exact hnew_nopub
        · rw [hpempty r.post_id]
          exact h.rdraftW r hr hst' w hw hact hrw
      · intro q
        rw [hpempty q]
        exact h.chain q

/-- Every reachable state satisfies the invariant; in particular the
noise-reuse chain property holds in every reachable state. -/
theorem reach_inv {cfg : Cfg} {s : St} (h : Reach cfg s) : Inv s := by
  induction h with
  | init => exact inv_init
  | step_tick tc ν now hs ih => exact inv_tick ih
  | step_query p now t hs ih => exact inv_query ih

/-! ### Supporting lemmas for the claims -/

theorem check_budget_locked {cfg : Cfg} {s : St} {p : ℕ} {n : ℚ}
    (h : is_lockedM s p = true) : (check_budget cfg s p n).1 = false := by
  unfold is_lockedM at h
  unfold check_budget
  cases hi : lookupItem s.items p with
  | none =>
      rw [hi] at h
      exact Bool.noConfusion h
  | some i =>
      rw [hi] at h
      have h2 : i.is_currently_locked = true := h
      simp [h2]

theorem check_budget_true_le {cfg : Cfg} {s : St} {p : ℕ} {n : ℚ}
    (h : (check_budget cfg s p n).1 = true) :
    n ≤ cfg.lifetime_cap - sumEpsL s.releases p := by
  unfold check_budget at h
  cases hi : lookupItem s.items p with
  | none =>
      rw [hi] at h
      simpa [ge_iff_le] using h
  | some i =>
      rw [hi] at h
      by_cases hl : i.is_currently_locked = true
      · simp [hl] at h
      · rw [Bool.not_eq_true] at hl
        simp [hl] at h
        simpa [ge_iff_le] using h

theorem sumEpsL_of_pub_cons {rs rs' : List Release} {r : Release} {p : ℕ}
    (h : publishedOf rs' p = r :: publishedOf rs p) :
    sumEpsL rs' p = r.epsilon_used + sumEpsL rs p := by
  unfold sumEpsL
  rw [h, List.map_cons, List.sum_cons]

theorem sumEpsL_of_pub_nil {rs : List Release} {p : ℕ}
    (h : publishedOf rs p = []) : sumEpsL rs p = 0 := by
  unfold sumEpsL
  rw [h]
  rfl

theorem sumEpsL_of_pub_singleton {rs : List Release} {r : Release} {p : ℕ}
    (h : publishedOf rs p = [r]) : sumEpsL rs p = r.epsilon_used := by
  unfold sumEpsL
  rw [h]
  simp

theorem get_dp_count_items (cfg : Cfg) (s : St) (p now t : ℕ) :
    (get_dp_count cfg s p now t).2.items = s.items ∧
    (get_dp_count cfg s p now t).2.windows = s.windows ∧
    (get_dp_count cfg s p now t).2.next_wid = s.next_wid := by
  rcases get_dp_count_state cfg s p now t with hst | ⟨cw, _, _, _, hst⟩ <;>
    rw [hst] <;> exact ⟨rfl, rfl, rfl⟩

theorem tick_no_active_state {cfg : Cfg} {tc : ℕ → ℕ} {ν : ℕ → ℚ} {now : ℕ}
    {s : St} (h : activeWindow s = none) :
    (tick cfg tc ν now s).releases = s.releases ∧
    (tick cfg tc ν now s).items = s.items := by
  rw [tick_of_no_active h]
  exact ⟨rfl, rfl⟩

theorem scap_tick {cfg : Cfg} {tc : ℕ → ℕ} {ν : ℕ → ℚ} {now : ℕ} {s : St}
    (hInv : Inv s) (hs : ∀ p, sumEpsL s.releases p ≤ cfg.lifetime_cap) :
    ∀ p, sumEpsL (tick cfg tc ν now s).releases p ≤ cfg.lifetime_cap := by
  intro p
  cases hW : activeWindow s with
  | none =>
      rw [(tick_no_active_state hW).1]
      exact hs p
  | some W =>
      rcases tick_pub_char hW hInv p with
        ⟨hpub, _⟩ | ⟨L, _, _, _, _, hpub⟩ | ⟨nv, m, _, hcb, _, _, hpub⟩
      · rw [sumEpsL_congr_pub hpub]
        exact hs p
      · rw [sumEpsL_of_pub_cons hpub]
        have : (reuseRow W.window_id (tc p) L p).epsilon_used = 0 := rfl
        rw [this, zero_add]
        exact hs p
      · have hle := check_budget_true_le hcb
        rcases hpub with hpub | ⟨hemp, hpub⟩
        · rw [sumEpsL_of_pub_cons hpub]
          have : (chargeRow cfg W.window_id (tc p) nv p).epsilon_used =
            cfg.epsilon_per_query := rfl
          rw [this]
          linarith
        · rw [sumEpsL_of_pub_singleton hpub]
          rw [sumEpsL_of_pub_nil hemp] at hle
          show cfg.epsilon_per_query ≤ cfg.lifetime_cap
          linarith

theorem scap_query {cfg : Cfg} {s : St} {p now t : ℕ}
    (hs : ∀ q, sumEpsL s.releases q ≤ cfg.lifetime_cap) :
    ∀ q, sumEpsL (get_dp_count cfg s p now t).2.releases q ≤ cfg.lifetime_cap := by
  intro q
  rcases get_dp_count_state cfg s p now t with hst | ⟨cw, _, _, _, hst⟩
  · rw [hst]
    exact hs q
  · rw [hst]
    show sumEpsL (insertIgnore s.releases _) q ≤ _
    unfold insertIgnore
    split
    · exact hs q
    · rw [sumEpsL_congr_pub (publishedOf_cons_draft rfl)]
      exact hs q

theorem reach_scap {cfg : Cfg} {s : St} (hcap : 0 ≤ cfg.lifetime_cap)
    (h : Reach cfg s) : ∀ p, sumEpsL s.releases p ≤ cfg.lifetime_cap := by
  induction h with
  | init =>
      intro p
      have : publishedOf st0.releases p = [] := rfl
      rw [sumEpsL_of_pub_nil this]
      exact hcap
  | step_tick tc ν now hs ih => exact scap_tick (reach_inv hs) ih
  | step_query p now t hs ih => exact scap_query ih

theorem winFilter_processPost {cfg : Cfg} {W : ℕ} {tc : ℕ → ℕ} {ν : ℕ → ℚ}
    {s : St} {q wid : ℕ} (hne : W ≠ wid) :
    ((processPost cfg W tc ν s q).releases.filter
        (fun r => decide (r.window_id = wid))) =
      s.releases.filter (fun r => decide (r.window_id = wid)) := by
  unfold processPost reuseStep chargeStep do_deduct
  split
  · split
    · split
      · exact winFilter_upsertRelease_ne hne (fun y => rfl)
      · split
        · exact winFilter_upsertRelease_ne hne (fun y => rfl)
        · rfl
    · split
      · exact winFilter_upsertRelease_ne hne (fun y => rfl)
      · rfl
  · rfl

theorem winFilter_foldl_processPost {cfg : Cfg} {W : ℕ} {tc : ℕ → ℕ} {ν : ℕ → ℚ}
    {wid : ℕ} (hne : W ≠ wid) (l : List ℕ) (s : St) :
    ((l.foldl (processPost cfg W tc ν) s).releases.filter
        (fun r => decide (r.window_id = wid))) =
      s.releases.filter (fun r => decide (r.window_id = wid)) := by
  induction l generalizing s with
  | nil => rfl
  | cons q tl ih =>
      rw [List.foldl_cons]
      rw [ih (processPost cfg W tc ν s q)]
      exact winFilter_processPost hne

theorem currentPublishedRow_mem {s : St} {p w : ℕ} {r : Release}
    (h : currentPublishedRow s p w = some r) :
    r ∈ s.releases ∧ r.post_id = p ∧ r.window_id = w ∧
      r.status = RStatus.published := by
  unfold currentPublishedRow at h
  have hm := List.mem_of_find?_eq_some h
  have hp := List.find?_some h
  simp only [decide_eq_true_eq] at hp
  exact ⟨hm, hp.1, hp.2.1, hp.2.2⟩

theorem get_dp_count_tracked_eq {cfg : Cfg} {s : St} {p now t : ℕ}
    (htr : s.releases.any (fun r => decide (r.post_id = p)) = true) :
    (get_dp_count cfg s p now t).2 = s := by
  rcases get_dp_count_state cfg s p now t with hst | ⟨cw, _, huntr, _, _⟩
  · exact hst
  · rw [htr] at huntr
    exact Bool.noConfusion huntr

theorem get_dp_count_no_window_eq {cfg : Cfg} {s : St} {p now t : ℕ}
    (hcw : currentWindowApi s now = none) :
    (get_dp_count cfg s p now t).2 = s := by
  unfold get_dp_count
  rw [hcw]

theorem get_dp_count_below_eq {cfg : Cfg} {s : St} {p now t : ℕ}
    (hthr : check_threshold cfg t = false) :
    (get_dp_count cfg s p now t).2 = s := by
  rcases get_dp_count_state cfg s p now t with hst | ⟨cw, _, _, hthr2, _⟩
  · exact hst
  · rw [hthr] at hthr2
    exact Bool.noConfusion hthr2

theorem get_dp_count_track_eq {cfg : Cfg} {s : St} {p now t cw : ℕ}
    (hcw : currentWindowApi s now = some cw)
    (huntr : s.releases.any (fun r => decide (r.post_id = p)) = false)
    (hthr : check_threshold cfg t = true) :
    (get_dp_count cfg s p now t).2.releases =
      Release.mk p cw t none 0 true RStatus.draft :: s.releases := by
  unfold get_dp_count
  rw [hcw]
  dsimp only
  rw [if_neg (by rw [huntr]; exact Bool.noConfusion), if_pos hthr]
  show insertIgnore s.releases _ = _
  unfold insertIgnore
  rw [if_neg ?hk]
  case hk =>
    rw [hasKey_iff]
    rintro ⟨y, hy, hy1, _⟩
    have : s.releases.any (fun r => decide (r.post_id = p)) = true :=
      List.any_eq_true.2 ⟨y, hy, by simp [hy1]⟩
    rw [huntr] at this
    exact Bool.noConfusion this

/-- Any noisy count the read path returns is the display rounding of the
randomized value of an already-published release row of the pre-state. -/
theorem get_dp_count_noisy_src (cfg : Cfg) (s : St) (p now t : ℕ) (v : ℚ)
    (h : respNoisy (get_dp_count cfg s p now t).1 = some v) :
    ∃ r ∈ s.releases, r.status = RStatus.published ∧
      ∃ x, r.noisy_count = some x ∧ v = round1 x := by
  unfold get_dp_count at h
  cases hcw : currentWindowApi s now with
  | none =>
      rw [hcw] at h
      exact absurd h (by simp [respNoisy])
  | some cw =>
      rw [hcw] at h
      dsimp only at h
      split at h
      · split at h
        · -- locked
          cases hlp : lastPublished s.releases p with
          | some L =>
              rw [hlp] at h
              dsimp only at h
              split at h
              · cases hx : L.noisy_count with
                | some x =>
                    rw [hx] at h
                    simp only [respNoisy, Resp.noisy_count, Option.some.injEq] at h
                    obtain ⟨hm, _, hst⟩ := mem_publishedOf.1 (lastPublished_mem hlp)
                    exact ⟨L, hm, hst, x, hx, h.symm⟩
                | none =>
                    rw [hx] at h
                    exact absurd h (by simp [respNoisy])
              · exact absurd h (by simp [respNoisy])
          | none =>
              rw [hlp] at h
              exact absurd h (by simp [respNoisy])
        · -- not locked: current window, else stale
          cases hcp : currentPublishedRow s p cw with
          | some r =>
              rw [hcp] at h
              dsimp only at h
              split at h
              · cases hx : r.noisy_count with
                | some x =>
                    rw [hx] at h
                    simp only [respNoisy, Resp.noisy_count, Option.some.injEq] at h
                    obtain ⟨hm, _, _, hst⟩ := currentPublishedRow_mem hcp
                    exact ⟨r, hm, hst, x, hx, h.symm⟩
                | none =>
                    rw [hx] at h
                    exact absurd h (by simp [respNoisy])
              · exact absurd h (by simp [respNoisy])
          | none =>
              rw [hcp] at h
              cases hlp : lastPublished s.releases p with
              | some L =>
                  rw [hlp] at h
                  dsimp only at h
                  split at h
                  · cases hx : L.noisy_count with
                    | some x =>
                        rw [hx] at h
                        simp only [respNoisy, Resp.noisy_count, Option.some.injEq] at h
                        obtain ⟨hm, _, hst⟩ := mem_publishedOf.1 (lastPublished_mem hlp)
                        exact ⟨L, hm, hst, x, hx, h.symm⟩
                    | none =>
                        rw [hx] at h
                        exact absurd h (by simp [respNoisy])
                  · exact absurd h (by simp [respNoisy])
              | none =>
                  rw [hlp] at h
                  exact absurd h (by simp [respNoisy])
      · split at h
        · exact absurd h (by simp [respNoisy])
        · exact absurd h (by simp [respNoisy])

/-- The read path never writes a randomized value: every row of the
post-state is a pre-state row or a NULL-noisy zero-epsilon draft. -/
theorem get_dp_count_new_rows (cfg : Cfg) (s : St) (p now t : ℕ) :
    ∀ r ∈ (get_dp_count cfg s p now t).2.releases,
      r ∈ s.releases ∨
        (r.status = RStatus.draft ∧ r.noisy_count = none ∧ r.epsilon_used = 0) := by
  intro r hr
  rcases get_dp_count_state cfg s p now t with hst | ⟨cw, _, _, _, hst⟩
  · rw [hst] at hr
    exact Or.inl hr
  · rw [hst] at hr
    dsimp only at hr
    unfold insertIgnore at hr
    split at hr
    · exact Or.inl hr
    · rcases List.mem_cons.1 hr with rfl | hr
      · exact Or.inr ⟨rfl, rfl, rfl⟩
      · exact Or.inl hr

/-! ### DPMechanism construction (dp_mechanism.py, config.py) -/

/-- config.THRESHOLD. -/
def THRESHOLD : ℕ := 1

/-- config.EPSILON_PER_QUERY. -/
def EPSILON_PER_QUERY : ℚ := 1/2

/-- config.SENSITIVITY. -/
def SENSITIVITY : ℚ := 1

/-- Python `x or default` truthiness on an optional rational argument:
None and 0.0 are falsy and yield the default; anything else is kept. -/
def pyOrQ (x : Option ℚ) (d : ℚ) : ℚ :=
  match x with
  | none => d
  | some v => if v = 0 then d else v

/-- Python `x or default` truthiness on an optional natural argument. -/
def pyOrN (x : Option ℕ) (d : ℕ) : ℕ :=
  match x with
  | none => d
  | some v => if v = 0 then d else v

/-- The DPMechanism object (threshold, epsilon, sensitivity). -/
structure DPMechanism where
  threshold : ℕ
  epsilon : ℚ
  sensitivity : ℚ
deriving DecidableEq, Repr

/-- DPMechanism.__init__: `self.threshold = threshold or THRESHOLD`,
`self.epsilon = epsilon or EPSILON_PER_QUERY`, `self.sensitivity =
sensitivity or SENSITIVITY`.  Total: no argument is ever rejected. -/
def DPMechanism.init (t : Option ℕ) (e : Option ℚ) (sv : Option ℚ) : DPMechanism :=
  ⟨pyOrN t THRESHOLD, pyOrQ e EPSILON_PER_QUERY, pyOrQ sv SENSITIVITY⟩

/-- DPMechanism.release_count with the Laplace sample supplied as `u`
(the draw's scale sensitivity/epsilon is a distributional fact not
representable in this embedding): returns
(noisy_count, epsilon_used, meets_threshold). -/
def DPMechanism.release_count (m : DPMechanism) (true_count : ℕ) (u : ℚ) :
    Option ℚ × ℚ × Bool :=
  if m.threshold ≤ true_count then ((some ((true_count : ℚ) + u)), m.epsilon, true)
  else (none, 0, false)

/-! ### calculate_confidence_interval (dp_mechanism.py), over the reals -/

/-- DPMechanism.calculate_confidence_interval: margin
`(sensitivity/epsilon) * ln(2/(1-confidence))`; lower clipped at 0. -/
noncomputable def calculate_confidence_interval
    (sensitivity epsilon noisy_count confidence : ℝ) : ℝ × ℝ :=
  let scale := sensitivity / epsilon
  let margin := scale * Real.log (2 / (1 - confidence))
  (max 0 (noisy_count - margin), noisy_count + margin)

/-! ### Concrete runs used as witnesses and counterexamples -/

/-- Demo-like configuration: threshold 1, epsilon 1/2 per release,
lifetime cap 2 (the spec §8 example scenario). -/
def cfgA : Cfg := ⟨1, 1/2, 2, 10, 1⟩

/-- Tight configuration: lifetime cap 1/2, so the first charge locks. -/
def cfgB : Cfg := ⟨1, 1/2, 1/2, 10, 1⟩

def tc3 : ℕ → ℕ := fun _ => 3

def tc15 : ℕ → ℕ := fun _ => 15

def nu4 : ℕ → ℚ := fun _ => 1/4

/-- Bootstrap tick: creates window 1. -/
def sA1 : St := tick cfgA tc3 nu4 0 st0

/-- First query of post 1 (true count 3): inserts the draft tracking row. -/
def sA2 : St := (get_dp_count cfgA sA1 1 0 3).2

/-- First publishing tick: charges post 1 in window 1 and rotates to
window 2. -/
def sA3 : St := tick cfgA tc3 nu4 0 sA2

/-- Second publishing tick with the value unchanged: reuse in window 2. -/
def sA4 : St := tick cfgA tc3 nu4 0 sA3

def sB1 : St := tick cfgB tc3 nu4 0 st0

def sB2 : St := (get_dp_count cfgB sB1 1 0 3).2

/-- Under cfgB the first charge exhausts the cap: post 1 is locked. -/
def sB3 : St := tick cfgB tc3 nu4 0 sB2

theorem reach_sA1 : Reach cfgA sA1 := Reach.step_tick tc3 nu4 0 Reach.init

theorem reach_sA2 : Reach cfgA sA2 := Reach.step_query 1 0 3 reach_sA1

theorem reach_sA3 : Reach cfgA sA3 := Reach.step_tick tc3 nu4 0 reach_sA2

theorem reach_sA4 : Reach cfgA sA4 := Reach.step_tick tc3 nu4 0 reach_sA3

theorem reach_sB3 : Reach cfgB sB3 :=
  Reach.step_tick tc3 nu4 0
    (Reach.step_query 1 0 3 (Reach.step_tick tc3 nu4 0 Reach.init))

theorem is_lockedM_congr {s1 s2 : St} {p : ℕ}
    (h : lookupItem s1.items p = lookupItem s2.items p) :
    is_lockedM s1 p = is_lockedM s2 p := by
  unfold is_lockedM
  rw [h]

theorem is_lockedM_of_items_eq {s1 s2 : St} {p : ℕ} (h : s1.items = s2.items) :
    is_lockedM s1 p = is_lockedM s2 p := by
  unfold is_lockedM lookupItem
  rw [h]

/-! ### The claims -/

/-- C1.  Noise-reuse invariant: in every reachable state, whenever two
published releases of the same post are adjacent in window order and
carry the same true value, the later one carries the bit-identical
randomized value and epsilon_charged 0 (`PChain` over that post's
published rows); moreover a publish tick that takes the reuse
transition for a post performs no ledger write for that post (its
dp_items row is untouched). -/
theorem noise_reuse_invariant (cfg : Cfg) (s : St) (h : Reach cfg s) :
    (∀ p, PChain (publishedOf s.releases p)) ∧
    (∀ tc ν now p L, lastPublished s.releases p = some L → L.true_count = tc p →
       lookupItem (tick cfg tc ν now s).items p = lookupItem s.items p) := by
  have hInv := reach_inv h
  refine ⟨hInv.chain, ?_⟩
  intro tc ν now p L hlp heq
  cases hW : activeWindow s with
  | none => rw [(tick_no_active_state hW).2]
  | some W =>
      rcases tick_pub_char hW hInv p with
        ⟨_, hit⟩ | ⟨L2, _, _, _, hit, _⟩ | ⟨nv, m, _, _, hne, _, _⟩
      · exact hit
      · exact hit
      · exact absurd heq (hne L hlp)

theorem noise_reuse_invariant_witness : PChain (publishedOf sA4.releases 1) :=
  (noise_reuse_invariant cfgA sA4 reach_sA4).1 1

/-- C2.  The read path performs no random draw (get_dp_count takes no
noise oracle at all) and writes no randomized value: any noisy count it
returns is the display rounding of the randomized value of a release
row already published in the pre-state, it never changes dp_items or
windows, and the only row it can add is a draft with NULL noisy_count
and zero epsilon. -/
theorem read_path_no_draw (cfg : Cfg) (s : St) (p now t : ℕ) (v : ℚ) :
    (respNoisy (get_dp_count cfg s p now t).1 = some v →
       ∃ r ∈ s.releases, r.status = RStatus.published ∧
         ∃ x, r.noisy_count = some x ∧ v = round1 x) ∧
    (get_dp_count cfg s p now t).2.items = s.items ∧
    (get_dp_count cfg s p now t).2.windows = s.windows ∧
    (∀ r ∈ (get_dp_count cfg s p now t).2.releases,
       r ∈ s.releases ∨
         (r.status = RStatus.draft ∧ r.noisy_count = none ∧ r.epsilon_used = 0)) :=
  ⟨get_dp_count_noisy_src cfg s p now t v, (get_dp_count_items cfg s p now t).1,
   (get_dp_count_items cfg s p now t).2.1, get_dp_count_new_rows cfg s p now t⟩

theorem read_path_no_draw_witness :
    ∃ r ∈ sA3.releases, r.status = RStatus.published ∧
      ∃ x, r.noisy_count = some x ∧ (33/10 : ℚ) = round1 x :=
  (read_path_no_draw cfgA sA3 1 0 3 (33/10)).1 (by with_unfolding_all decide)

/-- C3.  Lock permanence: in any reachable state in which a post's
cached locked flag is set, any further publish tick leaves the flag set,
charges no epsilon for that post (its published epsilon sum and its
dp_items row are unchanged), and any query leaves the flag set.
check_budget itself is read-only (modelled as a pure function) and
deduct runs only inside the tick, which is covered here. -/
theorem lock_permanent (cfg : Cfg) (s : St) (p : ℕ) (h : Reach cfg s)
    (hl : is_lockedM s p = true) :
    (∀ tc ν now,
       is_lockedM (tick cfg tc ν now s) p = true ∧
       sumEpsL (tick cfg tc ν now s).releases p = sumEpsL s.releases p ∧
       lookupItem (tick cfg tc ν now s).items p = lookupItem s.items p) ∧
    (∀ q now t, is_lockedM (get_dp_count cfg s q now t).2 p = true) := by
  have hInv := reach_inv h
  constructor
  · intro tc ν now
    cases hW : activeWindow s with
    | none =>
        obtain ⟨hrel, hit⟩ := @tick_no_active_state cfg tc ν now _ hW
        refine ⟨?_, by rw [hrel], by rw [hit]⟩
        rw [is_lockedM_of_items_eq hit]
        exact hl
    | some W =>
        rcases tick_pub_char hW hInv p with
          ⟨hpub, hit⟩ | ⟨L, _, _, _, hit, hpub⟩ | ⟨nv, m, _, hcb, _, _, _⟩
        · exact ⟨by rw [is_lockedM_congr hit]; exact hl,
            sumEpsL_congr_pub hpub, hit⟩
        · refine ⟨by rw [is_lockedM_congr hit]; exact hl, ?_, hit⟩
          rw [sumEpsL_of_pub_cons hpub]
          show (0 : ℚ) + _ = _
          rw [zero_add]
        · rw [check_budget_locked hl] at hcb
          exact Bool.noConfusion hcb
  · intro q now t
    rw [is_lockedM_of_items_eq (get_dp_count_items cfg s q now t).1]
    exact hl

theorem lock_permanent_witness :
    is_lockedM (tick cfgB tc15 nu4 0 sB3) 1 = true ∧
    sumEpsL (tick cfgB tc15 nu4 0 sB3).releases 1 = sumEpsL sB3.releases 1 ∧
    is_lockedM (get_dp_count cfgB sB3 1 0 15).2 1 = true :=
  ⟨((lock_permanent cfgB sB3 1 reach_sB3 (by with_unfolding_all decide)).1 tc15 nu4 0).1,
   ((lock_permanent cfgB sB3 1 reach_sB3 (by with_unfolding_all decide)).1 tc15 nu4 0).2.1,
   (lock_permanent cfgB sB3 1 reach_sB3 (by with_unfolding_all decide)).2 1 0 15⟩

/-- C5.  Budget conservation: in every reachable state the published
epsilon sum of every post stays within the lifetime cap, and a tick for
which the next charge would not fit (remaining < epsilonPerRelease,
hence check_budget denies) leaves that post's published sum and its
dp_items row unchanged — the lockedSkip transition. -/
theorem budget_conservation (cfg : Cfg) (s : St)
    (hcap : 0 ≤ cfg.lifetime_cap) (h : Reach cfg s) :
    (∀ p, sumEpsL s.releases p ≤ cfg.lifetime_cap) ∧
    (∀ tc ν now p,
       cfg.lifetime_cap - sumEpsL s.releases p < cfg.epsilon_per_query →
       sumEpsL (tick cfg tc ν now s).releases p = sumEpsL s.releases p ∧
       lookupItem (tick cfg tc ν now s).items p = lookupItem s.items p) := by
  refine ⟨reach_scap hcap h, ?_⟩
  intro tc ν now p hskip
  have hInv := reach_inv h
  cases hW : activeWindow s with
  | none =>
      obtain ⟨hrel, hit⟩ := @tick_no_active_state cfg tc ν now _ hW
      exact ⟨by rw [hrel], by rw [hit]⟩
  | some W =>
      rcases tick_pub_char hW hInv p with
        ⟨hpub, hit⟩ | ⟨L, _, _, _, hit, hpub⟩ | ⟨nv, m, _, hcb, _, _, _⟩
      · exact ⟨sumEpsL_congr_pub hpub, hit⟩
      · refine ⟨?_, hit⟩
        rw [sumEpsL_of_pub_cons hpub]
        show (0 : ℚ) + _ = _
        rw [zero_add]
      · have := check_budget_true_le hcb
        linarith

theorem budget_conservation_witness :
    sumEpsL sA3.releases 1 ≤ cfgA.lifetime_cap :=
  (budget_conservation cfgA sA3 (by decide) reach_sA3).1 1

/-- C10.  A post with no dp_items row (never initialized by a
deduction) is treated as unlocked: is_locked maps the missing row to
false, and check_budget falls through to the pure arithmetic check, so
read path and scheduler both see the post as unlocked. -/
theorem missing_budget_row_unlocked (cfg : Cfg) (s : St) (p : ℕ) (n : ℚ)
    (h : lookupItem s.items p = none) :
    is_lockedM s p = false ∧
    (check_budget cfg s p n).1 =
      decide (cfg.lifetime_cap - sumEpsL s.releases p ≥ n) := by
  constructor
  · unfold is_lockedM
    rw [h]
  · unfold check_budget
    rw [h]

theorem missing_budget_row_unlocked_witness :
    is_lockedM sA2 1 = false ∧
    (check_budget cfgA sA2 1 (1/2)).1 =
      decide (cfgA.lifetime_cap - sumEpsL sA2.releases 1 ≥ 1/2) :=
  missing_budget_row_unlocked cfgA sA2 1 (1/2) (by with_unfolding_all decide)

/-- C4 (counterexample).  After the first charging tick for post 1, the
dp_items row records total_epsilon_spent 1 although the sum of
epsilon_used over the post's published releases is 1/2: the deduction
re-sums inside the transaction that already contains the new row and
then adds EPSILON_PER_QUERY again, so the recorded lifetime total does
not equal the published sum as the claim states. -/
theorem budget_record_double_count_cex :
    (lookupItem sA3.items 1).map DPItem.total_epsilon_spent = some 1 ∧
    sumEpsL sA3.releases 1 = 1/2 ∧
    ¬ ((lookupItem sA3.items 1).map DPItem.total_epsilon_spent =
        some (sumEpsL sA3.releases 1)) := by
  refine ⟨?_, ?_, ?_⟩ <;> with_unfolding_all decide

/-- C4 (amended).  When a publish tick takes the successful charge
transition for a tracked post, the dp_items row written in that
transaction records lifetime total = (sum of epsilon_used over the
post's published releases) + epsilonPerRelease — the current charge is
double counted because _do_deduct re-sums after the row insert — the
recorded remaining is the cap minus that total, and the locked flag is
set exactly when that remaining is strictly below epsilonPerRelease. -/
theorem budget_record_accounting_amended (cfg : Cfg) (tc : ℕ → ℕ) (ν : ℕ → ℚ)
    (now : ℕ) (s : St) (W : Window) (p : ℕ)
    (hW : activeWindow s = some W)
    (hknd : keysNodup s.releases)
    (htrack : p ∈ trackedPosts s)
    (hthr : check_threshold cfg (tc p) = true)
    (hne : ∀ L, lastPublished s.releases p = some L → L.true_count ≠ tc p)
    (hcb : (check_budget cfg s p cfg.epsilon_per_query).1 = true) :
    lookupItem (tick cfg tc ν now s).items p =
      some ⟨p, W.window_id,
        decide (cfg.lifetime_cap -
          (sumEpsL (tick cfg tc ν now s).releases p + cfg.epsilon_per_query)
            < cfg.epsilon_per_query),
        sumEpsL (tick cfg tc ν now s).releases p + cfg.epsilon_per_query⟩ := by
  obtain ⟨sA, e1, e2, eknd, efin1, efin2⟩ :=
    foldl_processPost_at cfg W.window_id tc ν (List.nodup_dedup _) htrack s hknd
  have hcbA : (check_budget cfg sA p cfg.epsilon_per_query).1 = true := by
    rw [check_budget_congr e1 e2]
    exact hcb
  have hstep : processPost cfg W.window_id tc ν sA p =
      chargeStep cfg W.window_id (tc p) ((tc p : ℚ) + ν p) sA p := by
    cases hlp : lastPublished sA.releases p with
    | some L =>
        exact processPost_charge_of_some hthr hlp
          (hne L ((lastPublished_congr e1).symm.trans hlp))
    | none => exact processPost_charge_of_none hthr hlp
  have hitems : lookupItem (tick cfg tc ν now s).items p =
      lookupItem ((processPost cfg W.window_id tc ν sA p).items) p := by
    rw [tick_items_of_active hW]
    exact efin2
  have hsum : sumEpsL (tick cfg tc ν now s).releases p =
      sumEpsL ((processPost cfg W.window_id tc ν sA p).releases) p := by
    rw [tick_releases_of_active hW]
    exact sumEpsL_congr efin1
  rw [hitems, hsum, hstep, chargeStep_of_budget hcbA, do_deduct_releases]
  exact lookupItem_upsertItem_self

theorem budget_record_accounting_amended_witness :
    lookupItem (tick cfgA tc3 nu4 0 sA2).items 1 =
      some ⟨1, 1,
        decide (cfgA.lifetime_cap -
          (sumEpsL (tick cfgA tc3 nu4 0 sA2).releases 1 + cfgA.epsilon_per_query)
            < cfgA.epsilon_per_query),
        sumEpsL (tick cfgA tc3 nu4 0 sA2).releases 1 + cfgA.epsilon_per_query⟩ :=
  budget_record_accounting_amended cfgA tc3 nu4 0 sA2 ⟨1, 0, 10, WStatus.active⟩ 1
    (by with_unfolding_all decide)
    (show (sA2.releases.map rkey).Nodup from by with_unfolding_all decide)
    (by with_unfolding_all decide) (by decide)
    (fun L hL => Option.noConfusion
      ((show lastPublished sA2.releases 1 = none from by
          with_unfolding_all decide).symm.trans hL))
    (by with_unfolding_all decide)

/-- C6 (counterexample).  After the first publishing tick the processed
window 1 is closed, yet invoking the tick a second time performs an
additional release write: it processes the freshly opened window 2 and
inserts a zero-epsilon reuse row there, so the second invocation is not
a no-op as the claim states. -/
theorem idempotent_publish_cex :
    (∃ w ∈ sA3.windows, w.window_id = 1 ∧ w.status = WStatus.closed) ∧
    sA3.releases.length = 1 ∧ sA4.releases.length = 2 := by
  refine ⟨?_, ?_, ?_⟩ <;> with_unfolding_all decide

/-- C6 (amended).  A tick never writes to a window that is already
closed (rows of a closed window are untouched, hence no epsilon is
charged against it), because the tick only processes the max-id active
window; and a retry that finds no active window (crash between closing
a window and creating its successor) only creates a fresh window,
writing no release rows and touching no budget rows. -/
theorem closed_window_untouched (cfg : Cfg) (s : St)
    (hnd : (s.windows.map Window.window_id).Nodup) :
    (∀ wid, (∃ w ∈ s.windows, w.window_id = wid ∧ w.status = WStatus.closed) →
       ∀ tc ν now,
         (tick cfg tc ν now s).releases.filter
             (fun r => decide (r.window_id = wid)) =
           s.releases.filter (fun r => decide (r.window_id = wid))) ∧
    (activeWindow s = none → ∀ tc ν now,
       (tick cfg tc ν now s).releases = s.releases ∧
       (tick cfg tc ν now s).items = s.items) := by
  constructor
  · rintro wid ⟨w0, hw0, hwid, hcl⟩ tc ν now
    cases hW : activeWindow s with
    | none => rw [(tick_no_active_state hW).1]
    | some W =>
        have hWmem := activeWindow_mem hW
        have hne : W.window_id ≠ wid := by
          intro hc
          have heqW : W = w0 :=
            List.inj_on_of_nodup_map hnd hWmem.1 hw0 (by rw [hc, hwid])
          have hstW := hWmem.2
          rw [heqW, hcl] at hstW
          exact WStatus.noConfusion hstW
        rw [tick_releases_of_active hW]
        exact winFilter_foldl_processPost hne _ s
  · intro hW tc ν now
    exact tick_no_active_state hW

theorem closed_window_untouched_witness :
    (tick cfgA tc15 nu4 0 sA3).releases.filter
        (fun r => decide (r.window_id = 1)) =
      sA3.releases.filter (fun r => decide (r.window_id = 1)) :=
  (closed_window_untouched cfgA sA3 (by with_unfolding_all decide)).1 1
    (by with_unfolding_all decide) tc15 nu4 0

/-- C7 (counterexample).  For a negative noisy value the claimed
containment `lower <= noisyValue` fails: the lower bound is clipped at
0, which lies strictly above the noisy value -1. -/
theorem confidence_interval_cex :
    ¬ ((calculate_confidence_interval 1 1 (-1) (95/100)).1 ≤ (-1 : ℝ)) := by
  intro h
  have h0 : (0 : ℝ) ≤ (calculate_confidence_interval 1 1 (-1) (95/100)).1 :=
    le_max_left 0 _
  linarith

/-- C7 (amended).  For every epsilon > 0, sensitivity > 0 and
noisyValue ≥ 0, the interval follows the claimed formula with margin
(sensitivity/epsilon)·ln(2/(1−confidence)) at confidence 0.95, and
satisfies lower ≤ noisyValue ≤ upper and lower ≥ 0.  (Nonnegativity of
the noisy value is required: the code clips the lower bound at 0.) -/
theorem confidence_interval_amended (sens eps noisy : ℝ)
    (hs : 0 < sens) (he : 0 < eps) (hn : 0 ≤ noisy) :
    (calculate_confidence_interval sens eps noisy (95/100)).1 =
      max 0 (noisy - sens / eps * Real.log (2 / (1 - 95/100))) ∧
    (calculate_confidence_interval sens eps noisy (95/100)).2 =
      noisy + sens / eps * Real.log (2 / (1 - 95/100)) ∧
    (calculate_confidence_interval sens eps noisy (95/100)).1 ≤ noisy ∧
    noisy ≤ (calculate_confidence_interval sens eps noisy (95/100)).2 ∧
    0 ≤ (calculate_confidence_interval sens eps noisy (95/100)).1 := by
  have hm : 0 ≤ sens / eps * Real.log (2 / (1 - 95/100)) := by
    have h40 : (2 : ℝ) / (1 - 95/100) = 40 := by norm_num
    rw [h40]
    exact mul_nonneg (div_nonneg hs.le he.le) (Real.log_nonneg (by norm_num))
  refine ⟨rfl, rfl, ?_, ?_, ?_⟩
  · show max 0 (noisy - sens / eps * Real.log (2 / (1 - 95/100))) ≤ noisy
    exact max_le hn (by linarith)
  · show noisy ≤ noisy + sens / eps * Real.log (2 / (1 - 95/100))
    linarith
  · exact le_max_left 0 _

theorem confidence_interval_amended_witness :
    (calculate_confidence_interval 1 1 5 (95/100)).1 ≤ 5 ∧
    (5 : ℝ) ≤ (calculate_confidence_interval 1 1 5 (95/100)).2 ∧
    0 ≤ (calculate_confidence_interval 1 1 5 (95/100)).1 :=
  ⟨(confidence_interval_amended 1 1 5 (by norm_num) (by norm_num) (by norm_num)).2.2.1,
   (confidence_interval_amended 1 1 5 (by norm_num) (by norm_num) (by norm_num)).2.2.2.1,
   (confidence_interval_amended 1 1 5 (by norm_num) (by norm_num) (by norm_num)).2.2.2.2⟩

/-- C8 (counterexample).  Constructing the mechanism with epsilon 0 is
not rejected: Python's `epsilon or EPSILON_PER_QUERY` silently replaces
the falsy 0.0 by the default (a value different from the one passed),
and a negative epsilon is accepted unchanged. -/
theorem epsilon_config_cex :
    (DPMechanism.init none (some 0) none).epsilon = EPSILON_PER_QUERY ∧
    (DPMechanism.init none (some (-1)) none).epsilon = -1 ∧
    EPSILON_PER_QUERY ≠ 0 := by
  refine ⟨?_, ?_, ?_⟩ <;> with_unfolding_all decide

/-- C8 (amended).  Construction never rejects: any nonzero epsilon
(including negative values) is stored as passed, epsilon = 0 (falsy in
Python) silently falls back to the config default EPSILON_PER_QUERY,
and the call-time release path uses exactly the stored epsilon as the
charged budget. -/
theorem epsilon_config_amended (t : Option ℕ) (sv : Option ℚ) (e : ℚ)
    (he : e ≠ 0) :
    (DPMechanism.init t (some e) sv).epsilon = e ∧
    (DPMechanism.init t (some 0) sv).epsilon = EPSILON_PER_QUERY ∧
    (∀ n u, (DPMechanism.init t (some e) sv).threshold ≤ n →
       ((DPMechanism.init t (some e) sv).release_count n u).2.1 = e) := by
  have h1 : (DPMechanism.init t (some e) sv).epsilon = e := by
    show pyOrQ (some e) EPSILON_PER_QUERY = e
    simp [pyOrQ, he]
  refine ⟨h1, by simp [DPMechanism.init, pyOrQ], ?_⟩
  intro n u hth
  unfold DPMechanism.release_count
  rw [if_pos hth]
  exact h1

theorem epsilon_config_amended_witness :
    (DPMechanism.init none (some (-1)) none).epsilon = -1 ∧
    ((DPMechanism.init none (some (-1)) none).release_count 5 1).2.1 = -1 :=
  ⟨(epsilon_config_amended none none (-1) (by norm_num)).1,
   (epsilon_config_amended none none (-1) (by norm_num)).2.2 5 1
     (by with_unfolding_all decide)⟩

/-- C9 (counterexample).  A query of an already-tracked post leaves the
database completely unchanged: no draft row capturing the current true
value (here 999) is upserted, contradicting the claim that every read
records a draft update. -/
theorem draft_on_read_cex :
    (get_dp_count cfgA sA3 1 0 999).2 = sA3 ∧
    sA3.releases.any (fun r => decide (r.true_count = 999)) = false := by
  refine ⟨?_, ?_⟩ <;> with_unfolding_all decide

/-- C9 (amended).  The read path writes a draft only on the first query
of a never-tracked post whose current true count meets the threshold:
that query prepends a draft row carrying the current true value and no
randomized value; a query of a tracked post, a query while no window
exists, and a below-threshold query of a new post all leave the
database unchanged. -/
theorem draft_only_first_query (cfg : Cfg) (s : St) (p now t : ℕ) :
    (∀ cw, currentWindowApi s now = some cw →
       s.releases.any (fun r => decide (r.post_id = p)) = false →
       check_threshold cfg t = true →
       (get_dp_count cfg s p now t).2.releases =
         Release.mk p cw t none 0 true RStatus.draft :: s.releases) ∧
    (s.releases.any (fun r => decide (r.post_id = p)) = true →
       (get_dp_count cfg s p now t).2 = s) ∧
    (currentWindowApi s now = none → (get_dp_count cfg s p now t).2 = s) ∧
    (check_threshold cfg t = false → (get_dp_count cfg s p now t).2 = s) :=
  ⟨fun _ hcw hun hthr => get_dp_count_track_eq hcw hun hthr,
   get_dp_count_tracked_eq, get_dp_count_no_window_eq, get_dp_count_below_eq⟩

theorem draft_only_first_query_witness :
    (get_dp_count cfgA sA1 1 0 3).2.releases =
      Release.mk 1 1 3 none 0 true RStatus.draft :: sA1.releases :=
  (draft_only_first_query cfgA sA1 1 0 3).1 1 (by with_unfolding_all decide)
    (by with_unfolding_all decide) (by decide)

end DP
